import Mathlib

/-!
Verification of the hand-rolled worker-pool task scheduler of this repository
(namespace `ex43` in `src/ch07/main.cpp`, together with the one-shot
promise/future channel discipline of `ex33::simple_packaged_task`).

The embedding is an interleaving small-step semantics over an explicit pool
state.  Every critical section of the C++ code (a region executed while
`m_state.mtx` is held) becomes one atomic transition of the step relation,
which is exactly the atomicity the single mutex grants the source.  Task
bodies run outside the lock, so dequeueing (under the lock) and finishing a
task (outside the lock) are separate transitions, and the state records which
worker currently holds the mutex.  Condition-variable wakeups are modelled by
scheduler nondeterminism: a worker transition is enabled exactly when the
predicate loop `while (work_queue.empty() && !aborting) cv.wait(lk);` would
let the worker proceed.

Machine integers do not matter here (the only arithmetic is vector indexing),
so task identifiers are `Nat` and the constructor argument is `Int` to keep
the C++ `int size` sign behaviour of `for (int i = 0; i < size; ++i)`.
-/

set_option autoImplicit false

namespace ex43

/-- Outcome slot of one task's one-shot channel (the shared state behind a
`std::promise`/`std::future` pair).  `pending` is the empty slot, `value` and
`failure` are `set_value`/`set_exception` outcomes, and `broken` is the
`broken_promise` state stored when the promise side is destroyed before
producing anything. -/
inductive ChannelState where
  | pending : ChannelState
  | value : Int → ChannelState
  | failure : String → ChannelState
  | broken : ChannelState
deriving DecidableEq, Repr

/-- Control state of one worker thread of `worker_loop`: blocked in the
condition-variable wait loop (`idle`), holding the mutex just after popping a
task (`popped`), executing a task body outside the lock (`running`), or done
after `break` (`terminated`). -/
inductive WorkerPhase where
  | idle : WorkerPhase
  | popped : Nat → WorkerPhase
  | running : Nat → WorkerPhase
  | terminated : WorkerPhase
deriving DecidableEq, Repr

/-- What the worker decides right after leaving the wait loop in
`worker_loop`: `exit` is the `if (m_state.aborting) break;` path,
`assertFail` is the `assert(!m_state.work_queue.empty())` firing, and
`dequeued t` is the `front()`/`pop()` path taking task `t`. -/
inductive WakeResult where
  | exit : WakeResult
  | assertFail : WakeResult
  | dequeued : Nat → WakeResult
deriving DecidableEq, Repr

/-- What `future::get()` raises when it does not return a value: the
re-raised task exception, or `std::future_error(broken_promise)`. -/
inductive GetErr where
  | thrown : String → GetErr
  | brokenPromise : GetErr
deriving DecidableEq, Repr

/-- A no-argument callable, by its behaviour when invoked: it either returns
a value or throws.  (The submitted callables are deterministic, so a callable
is determined by its outcome.) -/
abbrev Callable := Except String Int

deriving instance DecidableEq for Except

end ex43

namespace ex33

/-- Embeds `ex33::simple_packaged_task::operator()` (and equally the
invocation of the `std::packaged_task` wrapped into `UniqueFunction` by
`ex43::ThreadPool::async`): run `m_func` inside `try`, deliver the result
with `set_value`, and on a throw catch everything and deliver
`std::current_exception()` with `set_exception`.  The channel therefore
always receives exactly one of value/failure from a run. -/
def runPackagedTask (f : ex43.Callable) : ex43.ChannelState :=
  match f with
  | Except.ok v => ex43.ChannelState.value v
  | Except.error e => ex43.ChannelState.failure e

end ex33

namespace ex43

/-- Embeds `future::get()` on a channel: blocks (`none`) while the slot is
empty, returns the value, re-raises the captured task exception, or raises
`std::future_error(std::future_errc::broken_promise)`. -/
def futureGet (c : ChannelState) : Option (Except GetErr Int) :=
  match c with
  | ChannelState.pending => none
  | ChannelState.value v => some (Except.ok v)
  | ChannelState.failure e => some (Except.error (GetErr.thrown e))
  | ChannelState.broken => some (Except.error GetErr.brokenPromise)

/-- Whole-pool state.  `tasks` records, per created task id, the behaviour of
its callable; `channels` the per-task one-shot slot; `work_queue` the FIFO of
ids still queued (`m_state.work_queue`); `aborting` is `m_state.aborting`;
`workers` the phase of each thread of `m_workers`; `lockHolder` which worker
holds `m_state.mtx` across the popped window; `crashed` records a fired
`assert`. -/
structure PoolState where
  tasks : List Callable
  channels : List ChannelState
  work_queue : List Nat
  aborting : Bool
  workers : List WorkerPhase
  lockHolder : Option Nat
  crashed : Bool
deriving DecidableEq, Repr

/-- Channel slot of task `t` (out-of-range ids read as an already-dead
channel). -/
def chanAt (s : PoolState) (t : Nat) : ChannelState :=
  s.channels.getD t ChannelState.broken

/-- The task id a worker phase is currently holding exclusively (popped or
running), if any. -/
def heldBy (p : WorkerPhase) : Option Nat :=
  match p with
  | WorkerPhase.popped t => some t
  | WorkerPhase.running t => some t
  | _ => none

/-- Ids of all tasks currently held by some worker. -/
def heldList (s : PoolState) : List Nat :=
  s.workers.filterMap heldBy

/-- The exit condition of the predicate loop
`while (work_queue.empty() && !aborting) cv.wait(lk);` — a worker can only
proceed past the wait when this is true. -/
def canWake (s : PoolState) : Bool :=
  !(s.work_queue.isEmpty && !s.aborting)

/-- Embeds `ThreadPool::ThreadPool(int size)`: the loop
`for (int i = 0; i < size; ++i)` spawns `size` workers when `size > 0` and
none at all when `size ≤ 0` (`Int.toNat` of a nonpositive is `0`).  All state
starts empty, the flag false, the mutex free. -/
def mkPool (size : Int) : PoolState :=
  { tasks := []
    channels := []
    work_queue := []
    aborting := false
    workers := List.replicate size.toNat WorkerPhase.idle
    lockHolder := none
    crashed := false }

/-- Embeds `ThreadPool::async` followed by `ThreadPool::enqueue_task`: build
a fresh `packaged_task` (a fresh pending channel and the recorded callable)
and, under the lock, `work_queue.push(...)` the new id at the tail; then
`notify_one` (a no-op in the interleaving model).  Note there is no check of
`aborting` anywhere on this path — the source has none. -/
def enqueueTask (s : PoolState) (c : Callable) : PoolState :=
  { s with
    tasks := s.tasks ++ [c]
    channels := s.channels ++ [ChannelState.pending]
    work_queue := s.work_queue ++ [s.tasks.length] }

/-- The decision a worker takes under the lock right after the wait loop
lets it through, mirroring `worker_loop` line by line:
`if (aborting) break;` then `assert(!work_queue.empty());` then
`front()`/`pop()`. -/
def workerWake (s : PoolState) : WakeResult :=
  if s.aborting then WakeResult.exit
  else
    match s.work_queue with
    | [] => WakeResult.assertFail
    | t :: _ => WakeResult.dequeued t

/-- Effect of worker `w`'s wake decision: `break` makes it terminated (the
`unique_lock` is released when the loop is left), a fired assert kills the
process (`crashed`), and a dequeue pops the head of the queue while the
worker keeps holding the mutex until the explicit `lk.unlock()`. -/
def applyWake (s : PoolState) (w : Nat) : PoolState :=
  match workerWake s with
  | WakeResult.exit =>
      { s with workers := s.workers.set w WorkerPhase.terminated }
  | WakeResult.assertFail => { s with crashed := true }
  | WakeResult.dequeued t =>
      { s with
        work_queue := s.work_queue.tail
        workers := s.workers.set w (WorkerPhase.popped t)
        lockHolder := some w }

/-- Embeds the explicit `lk.unlock();` before `task();` in `worker_loop`:
worker `w` releases the mutex and starts executing task `t` outside it. -/
def unlockRun (s : PoolState) (w t : Nat) : PoolState :=
  { s with
    lockHolder := none
    workers := s.workers.set w (WorkerPhase.running t) }

/-- Embeds `task();` returning: the packaged task invocation delivers the
callable's outcome into the channel (`ex33.runPackagedTask`), and the worker
loops back to the top of `while (true)`, i.e. back to waiting. -/
def finishTask (s : PoolState) (w t : Nat) : PoolState :=
  { s with
    channels := s.channels.set t (ex33.runPackagedTask (s.tasks.getD t (Except.ok 0)))
    workers := s.workers.set w WorkerPhase.idle }

/-- Embeds the first block of `~ThreadPool`:
`{ lock_guard lk(m_state.mtx); m_state.aborting = true; }` followed by the
`notify_all` broadcast (again a no-op in the interleaving model). -/
def setAborting (s : PoolState) : PoolState :=
  { s with aborting := true }

/-- Destruction of one still-queued `packaged_task`: destroying it while its
promise was never satisfied stores `broken_promise` into the shared state;
an already satisfied channel is left alone. -/
def abandonOne (chs : List ChannelState) (t : Nat) : List ChannelState :=
  match chs.getD t ChannelState.broken with
  | ChannelState.pending => chs.set t ChannelState.broken
  | _ => chs

/-- Embeds the implicit end of `~ThreadPool` after every `t.join()` has
returned: the member `m_state.work_queue` is destroyed, destroying every
still-queued task cell and thereby breaking each of their pending promises. -/
def destroyQueue (s : PoolState) : PoolState :=
  { s with
    channels := s.work_queue.foldl abandonOne s.channels
    work_queue := [] }

/-- One interleaved transition of the pool: a submitter or worker or the
destroying thread executes one critical section (or one task body).  Every
constructor's guard is the condition the source checks under the same mutex
acquisition that performs the mutation. -/
inductive Step : PoolState → PoolState → Prop where
  | submit (s : PoolState) (c : Callable) (hl : s.lockHolder = none) :
      Step s (enqueueTask s c)
  | wake (s : PoolState) (w : Nat)
      (hw : s.workers.getD w WorkerPhase.terminated = WorkerPhase.idle)
      (hl : s.lockHolder = none) (hc : canWake s = true) :
      Step s (applyWake s w)
  | unlock (s : PoolState) (w t : Nat)
      (hw : s.workers.getD w WorkerPhase.terminated = WorkerPhase.popped t) :
      Step s (unlockRun s w t)
  | finish (s : PoolState) (w t : Nat)
      (hw : s.workers.getD w WorkerPhase.terminated = WorkerPhase.running t) :
      Step s (finishTask s w t)
  | abortPool (s : PoolState) (hl : s.lockHolder = none) :
      Step s (setAborting s)
  | reclaim (s : PoolState) (ha : s.aborting = true)
      (ht : s.workers.all (fun p => p = WorkerPhase.terminated) = true) :
      Step s (destroyQueue s)

/-- Reflexive-transitive closure of `Step`: the states an execution can pass
through. -/
inductive Reach : PoolState → PoolState → Prop where
  | refl (s : PoolState) : Reach s s
  | tail {s t u : PoolState} : Reach s t → Step t u → Reach s u

/-- If the destructor finds the mutex held, the holding worker is inside its
popped window; the destructor's `lock_guard` blocks until that worker's
`lk.unlock()`.  This function performs that one pending unlock so the
destructor can proceed. -/
def drainLock (s : PoolState) : PoolState :=
  match s.lockHolder with
  | none => s
  | some w =>
    match s.workers.getD w WorkerPhase.terminated with
    | WorkerPhase.popped t => unlockRun s w t
    | _ => s

/-- What `t.join()` on worker `w` waits for, once `aborting` is set: the
worker finishes whatever it currently holds (delivering that task's outcome)
and then observes `aborting` under the lock and breaks. -/
def joinWorker (s : PoolState) (w : Nat) : PoolState :=
  match s.workers.getD w WorkerPhase.terminated with
  | WorkerPhase.idle => applyWake s w
  | WorkerPhase.popped t => applyWake (finishTask (unlockRun s w t) w t) w
  | WorkerPhase.running t => applyWake (finishTask s w t) w
  | WorkerPhase.terminated => s

/-- The `for (std::thread &t : m_workers) t.join();` loop of `~ThreadPool`. -/
def joinAll (s : PoolState) : PoolState :=
  (List.range s.workers.length).foldl joinWorker s

/-- Embeds the whole of `~ThreadPool` as observed from state `s`: wait for
the mutex, set `aborting` under it, broadcast, join every worker, and then
destroy the members — which breaks the promise of every task still queued. -/
def teardown (s : PoolState) : PoolState :=
  destroyQueue (joinAll (setAborting (drainLock s)))

/-- A burst of submissions in order. -/
def submitAll (s : PoolState) (cs : List Callable) : PoolState :=
  cs.foldl enqueueTask s

/-- A schedule entry: which thread takes its next enabled transition. -/
inductive Act where
  | submitA : Callable → Act
  | wakeA : Nat → Act
  | unlockA : Nat → Act
  | finishA : Nat → Act
  | abortA : Act
  | reclaimA : Act
deriving DecidableEq, Repr

/-- Run one schedule entry if its guard is enabled in `s` (the executable
mirror of `Step`, used to build concrete executions). -/
def applyAct (s : PoolState) (a : Act) : Option PoolState :=
  match a with
  | Act.submitA c =>
      if s.lockHolder = none then some (enqueueTask s c) else none
  | Act.wakeA w =>
      if s.workers.getD w WorkerPhase.terminated = WorkerPhase.idle ∧
          s.lockHolder = none ∧ canWake s = true then
        some (applyWake s w)
      else none
  | Act.unlockA w =>
      match s.workers.getD w WorkerPhase.terminated with
      | WorkerPhase.popped t => some (unlockRun s w t)
      | _ => none
  | Act.finishA w =>
      match s.workers.getD w WorkerPhase.terminated with
      | WorkerPhase.running t => some (finishTask s w t)
      | _ => none
  | Act.abortA =>
      if s.lockHolder = none then some (setAborting s) else none
  | Act.reclaimA =>
      if s.aborting = true ∧
          s.workers.all (fun p => p = WorkerPhase.terminated) = true then
        some (destroyQueue s)
      else none

/-- Run a whole schedule. -/
def runActs (s : PoolState) : List Act → Option PoolState
  | [] => some s
  | a :: rest =>
    match applyAct s a with
    | some s2 => runActs s2 rest
    | none => none

/-- Well-formedness of a reachable pool state: channel/task arrays line up,
every queued or held id is a live task, no id is both queued and held or held
twice, a channel is pending exactly while its task is queued or held, the
mutex is held exactly by a worker in its popped window, delivered values come
from the task's own callable, and no assert has fired. -/
structure Inv (s : PoolState) : Prop where
  lenEq : s.channels.length = s.tasks.length
  idsLt : ∀ t, t ∈ s.work_queue ++ heldList s → t < s.tasks.length
  noDup : (s.work_queue ++ heldList s).Nodup
  pendingIff : ∀ t, t < s.tasks.length →
    (chanAt s t = ChannelState.pending ↔ t ∈ s.work_queue ++ heldList s)
  lockPopped : ∀ w, s.lockHolder = some w ↔
    (∃ t, s.workers.getD w WorkerPhase.terminated = WorkerPhase.popped t)
  valueSrc : ∀ t v, chanAt s t = ChannelState.value v →
    s.tasks.getD t (Except.ok 0) = Except.ok v
  noCrash : s.crashed = false

/-- Facts carried along the destructor's execution from a state `a` already
marked aborting to a later state `b`: the later state is reachable, still
aborting, mutex free, has no worker inside a popped window, the queue, task
table and thread count are untouched, and every already-terminated worker
stays terminated. -/
structure TearFacts (a b : PoolState) : Prop where
  toReach : Reach a b
  abortingEq : b.aborting = true
  lockNone : b.lockHolder = none
  noPoppedPost : ∀ w t,
    b.workers.getD w WorkerPhase.terminated ≠ WorkerPhase.popped t
  queueEq : b.work_queue = a.work_queue
  tasksEq : b.tasks = a.tasks
  workersLen : b.workers.length = a.workers.length
  keepTerm : ∀ w,
    a.workers.getD w WorkerPhase.terminated = WorkerPhase.terminated →
    b.workers.getD w WorkerPhase.terminated = WorkerPhase.terminated

/-- A concrete schedule on a pool of two workers: submit three tasks
returning 1, 4 and 9, then let the two workers interleave so that the second
task finishes before the first (completion order differs from submission
order). -/
def actsA : List Act :=
  [Act.submitA (Except.ok 1), Act.submitA (Except.ok 4),
    Act.submitA (Except.ok 9), Act.wakeA 0, Act.unlockA 0, Act.wakeA 1,
    Act.unlockA 1, Act.finishA 1, Act.finishA 0, Act.wakeA 0, Act.unlockA 0,
    Act.finishA 0]

/-- Final state of the `actsA` schedule. -/
def stateA : PoolState := (runActs (mkPool 2) actsA).getD (mkPool 2)

/-- A concrete schedule on a pool of one worker: a normal task, then a task
that throws `"boom"`, then another normal task; stop just as the worker has
begun executing the throwing task. -/
def actsB : List Act :=
  [Act.submitA (Except.ok 10), Act.submitA (Except.error "boom"),
    Act.submitA (Except.ok 20), Act.wakeA 0, Act.unlockA 0, Act.finishA 0,
    Act.wakeA 0, Act.unlockA 0]

/-- State of the `actsB` schedule: the worker is mid-execution of the
throwing task, the first task already delivered its value. -/
def stateB : PoolState := (runActs (mkPool 1) actsB).getD (mkPool 1)

/-- Continuation of `actsB`: the worker survives the throwing task and runs
the remaining normal task to completion. -/
def actsB2 : List Act :=
  actsB ++ [Act.finishA 0, Act.wakeA 0, Act.unlockA 0, Act.finishA 0]

/-- Final state of the `actsB2` schedule. -/
def stateB2 : PoolState := (runActs (mkPool 1) actsB2).getD (mkPool 1)

/-- A pool of one worker with one task queued whose destructor has just set
the aborting flag: the queued task has not been dequeued, the worker is
still waiting. -/
def stateAband : PoolState := setAborting (enqueueTask (mkPool 1) (Except.ok 5))

end ex43

namespace ex43

/-! ### List index and filterMap helpers -/

theorem getD_of_le {α : Type} (l : List α) (i : Nat) (d : α)
    (h : l.length ≤ i) : l.getD i d = d := by
  induction l generalizing i with
  | nil => rfl
  | cons a tl ih =>
    cases i with
    | zero => simp at h
    | succ j => exact ih j (Nat.le_of_succ_le_succ h)

theorem lt_of_getD_ne {α : Type} (l : List α) (i : Nat) (d : α)
    (h : l.getD i d ≠ d) : i < l.length := by
  by_contra hc
  exact h (getD_of_le l i d (Nat.le_of_not_lt hc))

theorem getD_set_self {α : Type} (l : List α) (i : Nat) (x d : α)
    (h : i < l.length) : (l.set i x).getD i d = x := by
  induction l generalizing i with
  | nil => simp at h
  | cons a tl ih =>
    cases i with
    | zero => rfl
    | succ j => exact ih j (Nat.lt_of_succ_lt_succ h)

theorem getD_set_ne {α : Type} (l : List α) (i j : Nat) (x d : α)
    (h : i ≠ j) : (l.set i x).getD j d = l.getD j d := by
  induction l generalizing i j with
  | nil => rfl
  | cons a tl ih =>
    cases i with
    | zero =>
      cases j with
      | zero => exact absurd rfl h
      | succ k => rfl
    | succ i2 =>
      cases j with
      | zero => rfl
      | succ k => exact ih i2 k fun he => h (by rw [he])

theorem getD_append_lt {α : Type} (l l2 : List α) (i : Nat) (d : α)
    (h : i < l.length) : (l ++ l2).getD i d = l.getD i d := by
  induction l generalizing i with
  | nil => simp at h
  | cons a tl ih =>
    cases i with
    | zero => rfl
    | succ j => exact ih j (Nat.lt_of_succ_lt_succ h)

theorem getD_append_len {α : Type} (l : List α) (x d : α) :
    (l ++ [x]).getD l.length d = x := by
  induction l with
  | nil => rfl
  | cons a tl ih => exact ih

theorem getD_replicate {α : Type} (k i : Nat) (a d : α) (h : i < k) :
    (List.replicate k a).getD i d = a := by
  induction k generalizing i with
  | zero => simp at h
  | succ k2 ih =>
    cases i with
    | zero => rfl
    | succ j => exact ih j (Nat.lt_of_succ_lt_succ h)

theorem heldList_set_none (l : List WorkerPhase) (w : Nat) (x : WorkerPhase)
    (hold : heldBy (l.getD w WorkerPhase.terminated) = none)
    (hnew : heldBy x = none) :
    (l.set w x).filterMap heldBy = l.filterMap heldBy := by
  induction l generalizing w with
  | nil => rfl
  | cons a tl ih =>
    cases w with
    | zero =>
      have ha : heldBy a = none := hold
      simp [List.filterMap_cons, ha, hnew]
    | succ j =>
      cases hfa : heldBy a <;>
        simp [List.set_cons_succ, List.filterMap_cons, hfa, ih j hold]

theorem heldList_set_insert (l : List WorkerPhase) (w : Nat)
    (x : WorkerPhase) (t : Nat)
    (hold : heldBy (l.getD w WorkerPhase.terminated) = none)
    (hnew : heldBy x = some t) (hw : w < l.length) :
    List.Perm ((l.set w x).filterMap heldBy) (t :: l.filterMap heldBy) := by
  induction l generalizing w with
  | nil => simp at hw
  | cons a tl ih =>
    cases w with
    | zero =>
      have ha : heldBy a = none := hold
      simp [List.filterMap_cons, ha, hnew]
    | succ j =>
      have hp := ih j hold (Nat.lt_of_succ_lt_succ hw)
      cases hfa : heldBy a with
      | none => simpa [List.set_cons_succ, List.filterMap_cons, hfa] using hp
      | some b =>
        simp only [List.set_cons_succ, List.filterMap_cons, hfa]
        exact (hp.cons b).trans (List.Perm.swap t b _)

theorem heldList_set_remove (l : List WorkerPhase) (w : Nat)
    (x : WorkerPhase) (t : Nat)
    (hold : heldBy (l.getD w WorkerPhase.terminated) = some t)
    (hnew : heldBy x = none) :
    List.Perm (l.filterMap heldBy) (t :: (l.set w x).filterMap heldBy) := by
  induction l generalizing w with
  | nil => exact absurd hold (by simp [heldBy])
  | cons a tl ih =>
    cases w with
    | zero =>
      have ha : heldBy a = some t := hold
      simp [List.filterMap_cons, ha, hnew]
    | succ j =>
      have hp := ih j hold
      cases hfa : heldBy a with
      | none => simpa [List.set_cons_succ, List.filterMap_cons, hfa] using hp
      | some b =>
        simp only [List.set_cons_succ, List.filterMap_cons, hfa]
        exact (hp.cons b).trans (List.Perm.swap t b _)

theorem heldList_set_keep (l : List WorkerPhase) (w : Nat) (x : WorkerPhase)
    (hold : heldBy (l.getD w WorkerPhase.terminated) = heldBy x) :
    (l.set w x).filterMap heldBy = l.filterMap heldBy := by
  induction l generalizing w with
  | nil => rfl
  | cons a tl ih =>
    cases w with
    | zero =>
      have ha : heldBy a = heldBy x := hold
      cases hfx : heldBy x <;> simp [List.filterMap_cons, ha, hfx]
    | succ j =>
      cases hfa : heldBy a <;>
        simp [List.set_cons_succ, List.filterMap_cons, hfa, ih j hold]

theorem getD_eq_get {α : Type} (l : List α) (i : Nat) (d : α)
    (h : i < l.length) : l.getD i d = l.get ⟨i, h⟩ := by
  induction l generalizing i with
  | nil => simp at h
  | cons a tl ih =>
    cases i with
    | zero => rfl
    | succ j => exact ih j (Nat.lt_of_succ_lt_succ h)

theorem mem_heldList_of_getD (s : PoolState) (w t : Nat)
    (h : heldBy (s.workers.getD w WorkerPhase.terminated) = some t) :
    t ∈ heldList s := by
  have hlt : w < s.workers.length := by
    apply lt_of_getD_ne s.workers w WorkerPhase.terminated
    intro he
    rw [he] at h
    exact Option.noConfusion h
  refine List.mem_filterMap.mpr ⟨s.workers.get ⟨w, hlt⟩, List.get_mem _ _ _, ?_⟩
  rw [← getD_eq_get s.workers w WorkerPhase.terminated hlt]
  exact h

end ex43

namespace ex43

/-! ### Field equations for the pool operations -/

@[simp] theorem enqueueTask_tasks (s : PoolState) (c : Callable) :
    (enqueueTask s c).tasks = s.tasks ++ [c] := rfl

@[simp] theorem enqueueTask_channels (s : PoolState) (c : Callable) :
    (enqueueTask s c).channels = s.channels ++ [ChannelState.pending] := rfl

@[simp] theorem enqueueTask_queue (s : PoolState) (c : Callable) :
    (enqueueTask s c).work_queue = s.work_queue ++ [s.tasks.length] := rfl

@[simp] theorem enqueueTask_aborting (s : PoolState) (c : Callable) :
    (enqueueTask s c).aborting = s.aborting := rfl

@[simp] theorem enqueueTask_workers (s : PoolState) (c : Callable) :
    (enqueueTask s c).workers = s.workers := rfl

@[simp] theorem enqueueTask_lock (s : PoolState) (c : Callable) :
    (enqueueTask s c).lockHolder = s.lockHolder := rfl

@[simp] theorem enqueueTask_crashed (s : PoolState) (c : Callable) :
    (enqueueTask s c).crashed = s.crashed := rfl

@[simp] theorem unlockRun_tasks (s : PoolState) (w t : Nat) :
    (unlockRun s w t).tasks = s.tasks := rfl

@[simp] theorem unlockRun_channels (s : PoolState) (w t : Nat) :
    (unlockRun s w t).channels = s.channels := rfl

@[simp] theorem unlockRun_queue (s : PoolState) (w t : Nat) :
    (unlockRun s w t).work_queue = s.work_queue := rfl

@[simp] theorem unlockRun_aborting (s : PoolState) (w t : Nat) :
    (unlockRun s w t).aborting = s.aborting := rfl

@[simp] theorem unlockRun_workers (s : PoolState) (w t : Nat) :
    (unlockRun s w t).workers = s.workers.set w (WorkerPhase.running t) := rfl

@[simp] theorem unlockRun_lock (s : PoolState) (w t : Nat) :
    (unlockRun s w t).lockHolder = none := rfl

@[simp] theorem unlockRun_crashed (s : PoolState) (w t : Nat) :
    (unlockRun s w t).crashed = s.crashed := rfl

@[simp] theorem finishTask_tasks (s : PoolState) (w t : Nat) :
    (finishTask s w t).tasks = s.tasks := rfl

@[simp] theorem finishTask_channels (s : PoolState) (w t : Nat) :
    (finishTask s w t).channels =
      s.channels.set t (ex33.runPackagedTask (s.tasks.getD t (Except.ok 0))) := rfl

@[simp] theorem finishTask_queue (s : PoolState) (w t : Nat) :
    (finishTask s w t).work_queue = s.work_queue := rfl

@[simp] theorem finishTask_aborting (s : PoolState) (w t : Nat) :
    (finishTask s w t).aborting = s.aborting := rfl

@[simp] theorem finishTask_workers (s : PoolState) (w t : Nat) :
    (finishTask s w t).workers = s.workers.set w WorkerPhase.idle := rfl

@[simp] theorem finishTask_lock (s : PoolState) (w t : Nat) :
    (finishTask s w t).lockHolder = s.lockHolder := rfl

@[simp] theorem finishTask_crashed (s : PoolState) (w t : Nat) :
    (finishTask s w t).crashed = s.crashed := rfl

@[simp] theorem setAborting_tasks (s : PoolState) :
    (setAborting s).tasks = s.tasks := rfl

@[simp] theorem setAborting_channels (s : PoolState) :
    (setAborting s).channels = s.channels := rfl

@[simp] theorem setAborting_queue (s : PoolState) :
    (setAborting s).work_queue = s.work_queue := rfl

@[simp] theorem setAborting_aborting (s : PoolState) :
    (setAborting s).aborting = true := rfl

@[simp] theorem setAborting_workers (s : PoolState) :
    (setAborting s).workers = s.workers := rfl

@[simp] theorem setAborting_lock (s : PoolState) :
    (setAborting s).lockHolder = s.lockHolder := rfl

@[simp] theorem setAborting_crashed (s : PoolState) :
    (setAborting s).crashed = s.crashed := rfl

@[simp] theorem destroyQueue_tasks (s : PoolState) :
    (destroyQueue s).tasks = s.tasks := rfl

@[simp] theorem destroyQueue_channels (s : PoolState) :
    (destroyQueue s).channels = s.work_queue.foldl abandonOne s.channels := rfl

@[simp] theorem destroyQueue_queue (s : PoolState) :
    (destroyQueue s).work_queue = [] := rfl

@[simp] theorem destroyQueue_aborting (s : PoolState) :
    (destroyQueue s).aborting = s.aborting := rfl

@[simp] theorem destroyQueue_workers (s : PoolState) :
    (destroyQueue s).workers = s.workers := rfl

@[simp] theorem destroyQueue_lock (s : PoolState) :
    (destroyQueue s).lockHolder = s.lockHolder := rfl

@[simp] theorem destroyQueue_crashed (s : PoolState) :
    (destroyQueue s).crashed = s.crashed := rfl

/-! ### The worker's wake decision -/

theorem workerWake_exit_iff (s : PoolState) :
    workerWake s = WakeResult.exit ↔ s.aborting = true := by
  unfold workerWake
  cases ha : s.aborting with
  | true => simp
  | false => cases hq : s.work_queue <;> simp

theorem workerWake_dequeued_inv (s : PoolState) (t : Nat)
    (h : workerWake s = WakeResult.dequeued t) :
    s.aborting = false ∧ ∃ rest, s.work_queue = t :: rest := by
  unfold workerWake at h
  cases ha : s.aborting with
  | true => rw [ha] at h; simp at h
  | false =>
    rw [ha] at h
    simp only [Bool.false_eq_true, if_false] at h
    cases hq : s.work_queue with
    | nil => rw [hq] at h; simp at h
    | cons t2 rest =>
      rw [hq] at h
      simp only [WakeResult.dequeued.injEq] at h
      exact ⟨rfl, rest, by rw [h]⟩

theorem workerWake_dequeued_of (s : PoolState) (t : Nat) (rest : List Nat)
    (ha : s.aborting = false) (hq : s.work_queue = t :: rest) :
    workerWake s = WakeResult.dequeued t := by
  unfold workerWake
  rw [ha, hq]
  simp

theorem workerWake_fail_inv (s : PoolState)
    (h : workerWake s = WakeResult.assertFail) :
    s.aborting = false ∧ s.work_queue = [] := by
  unfold workerWake at h
  cases ha : s.aborting with
  | true => rw [ha] at h; simp at h
  | false =>
    rw [ha] at h
    simp only [Bool.false_eq_true, if_false] at h
    cases hq : s.work_queue with
    | nil => exact ⟨rfl, rfl⟩
    | cons t2 rest => rw [hq] at h; simp at h

theorem applyWake_exit (s : PoolState) (w : Nat)
    (h : workerWake s = WakeResult.exit) :
    applyWake s w = { s with workers := s.workers.set w WorkerPhase.terminated } := by
  unfold applyWake
  rw [h]

theorem applyWake_dequeued (s : PoolState) (w t : Nat)
    (h : workerWake s = WakeResult.dequeued t) :
    applyWake s w =
      { s with
        work_queue := s.work_queue.tail
        workers := s.workers.set w (WorkerPhase.popped t)
        lockHolder := some w } := by
  unfold applyWake
  rw [h]

theorem applyWake_fail (s : PoolState) (w : Nat)
    (h : workerWake s = WakeResult.assertFail) :
    applyWake s w = { s with crashed := true } := by
  unfold applyWake
  rw [h]

theorem canWake_of_aborting (s : PoolState) (h : s.aborting = true) :
    canWake s = true := by
  simp [canWake, h]

/-! ### Reachability basics -/

theorem reach_step {s t : PoolState} (h : Step s t) : Reach s t :=
  Reach.tail (Reach.refl s) h

theorem reach_trans {a b c : PoolState} (h1 : Reach a b) (h2 : Reach b c) :
    Reach a c := by
  induction h2 with
  | refl => exact h1
  | tail _ hstep ih => exact Reach.tail ih hstep

end ex43

namespace ex43

/-! ### Invariant preservation, one lemma per transition -/

@[simp] theorem heldList_enqueue (s : PoolState) (c : Callable) :
    heldList (enqueueTask s c) = heldList s := rfl

@[simp] theorem heldList_setAborting (s : PoolState) :
    heldList (setAborting s) = heldList s := rfl

@[simp] theorem heldList_destroyQueue (s : PoolState) :
    heldList (destroyQueue s) = heldList s := rfl

theorem inv_submit (s : PoolState) (c : Callable) (hi : Inv s) :
    Inv (enqueueTask s c) := by
  have hn : s.channels.length = s.tasks.length := hi.lenEq
  constructor
  case lenEq => simp [hn]
  case idsLt =>
    intro t ht
    simp only [heldList_enqueue, enqueueTask_queue, enqueueTask_tasks,
      List.mem_append, List.mem_singleton, List.length_append,
      List.length_singleton] at ht ⊢
    rcases ht with (hq | he) | hh
    · have := hi.idsLt t (List.mem_append.mpr (Or.inl hq))
      omega
    · omega
    · have := hi.idsLt t (List.mem_append.mpr (Or.inr hh))
      omega
  case noDup =>
    have hfresh : s.tasks.length ∉ s.work_queue ++ heldList s := by
      intro hm
      exact absurd (hi.idsLt _ hm) (lt_irrefl _)
    have hcons : (s.tasks.length :: (s.work_queue ++ heldList s)).Nodup :=
      List.nodup_cons.mpr ⟨hfresh, hi.noDup⟩
    have hperm : List.Perm
        (s.tasks.length :: (s.work_queue ++ heldList s))
        (s.work_queue ++ s.tasks.length :: heldList s) :=
      List.perm_middle.symm
    have : (s.work_queue ++ s.tasks.length :: heldList s).Nodup :=
      hperm.nodup hcons
    simpa [heldList_enqueue, List.append_assoc] using this
  case pendingIff =>
    intro t ht
    simp only [enqueueTask_tasks, List.length_append, List.length_singleton] at ht
    rcases Nat.lt_or_ge t s.tasks.length with hlt | hge
    · have hc : chanAt (enqueueTask s c) t = chanAt s t := by
        simp only [chanAt, enqueueTask_channels]
        exact getD_append_lt _ _ _ _ (by rw [hn]; exact hlt)
      have hne : t ≠ s.tasks.length := Nat.ne_of_lt hlt
      rw [hc]
      rw [hi.pendingIff t hlt]
      simp only [heldList_enqueue, enqueueTask_queue, List.mem_append,
        List.mem_singleton]
      constructor
      · rintro (hq | hh)
        · exact Or.inl (Or.inl hq)
        · exact Or.inr hh
      · rintro ((hq | he) | hh)
        · exact Or.inl hq
        · exact absurd he hne
        · exact Or.inr hh
    · have hteq : t = s.tasks.length := by omega
      subst hteq
      have hc : chanAt (enqueueTask s c) s.tasks.length = ChannelState.pending := by
        simp only [chanAt, enqueueTask_channels]
        rw [← hn]
        exact getD_append_len _ _ _
      rw [hc]
      simp [List.mem_append]
  case lockPopped =>
    intro w
    simpa using hi.lockPopped w
  case valueSrc =>
    intro t v hv
    rcases Nat.lt_or_ge t s.tasks.length with hlt | hge
    · have hc : chanAt (enqueueTask s c) t = chanAt s t := by
        simp only [chanAt, enqueueTask_channels]
        exact getD_append_lt _ _ _ _ (by rw [hn]; exact hlt)
      rw [hc] at hv
      have := hi.valueSrc t v hv
      simp only [enqueueTask_tasks]
      rw [getD_append_lt _ _ _ _ hlt]
      exact this
    · rcases Nat.lt_or_ge t (s.tasks.length + 1) with hlt2 | hge2
      · have hteq : t = s.tasks.length := by omega
        subst hteq
        have hc : chanAt (enqueueTask s c) s.tasks.length = ChannelState.pending := by
          simp only [chanAt, enqueueTask_channels]
          rw [← hn]
          exact getD_append_len _ _ _
        rw [hc] at hv
        exact absurd hv (by simp)
      · have hc : chanAt (enqueueTask s c) t = ChannelState.broken := by
          simp only [chanAt, enqueueTask_channels]
          apply getD_of_le
          simp only [List.length_append, List.length_singleton]
          omega
        rw [hc] at hv
        exact absurd hv (by simp)
  case noCrash => simpa using hi.noCrash

end ex43

namespace ex43

theorem inv_wake (s : PoolState) (w : Nat)
    (hw : s.workers.getD w WorkerPhase.terminated = WorkerPhase.idle)
    (hl : s.lockHolder = none) (hc : canWake s = true) (hi : Inv s) :
    Inv (applyWake s w) := by
  have hwlt : w < s.workers.length := by
    apply lt_of_getD_ne s.workers w WorkerPhase.terminated
    rw [hw]
    intro he
    exact WorkerPhase.noConfusion he
  cases hres : workerWake s with
  | exit =>
    rw [applyWake_exit s w hres]
    have hheld : (s.workers.set w WorkerPhase.terminated).filterMap heldBy =
        heldList s :=
      heldList_set_none _ _ _ (by rw [hw]; rfl) rfl
    constructor
    case lenEq => exact hi.lenEq
    case idsLt =>
      intro t2 ht2
      apply hi.idsLt t2
      simpa [heldList, hheld] using ht2
    case noDup =>
      have := hi.noDup
      simpa [heldList, hheld] using this
    case pendingIff =>
      intro t2 ht2
      have := hi.pendingIff t2 ht2
      simpa [chanAt, heldList, hheld] using this
    case lockPopped =>
      intro w2
      simp only []
      rw [hl]
      constructor
      · intro hcontra
        exact Option.noConfusion hcontra
      · rintro ⟨t2, ht2⟩
        by_cases hww : w = w2
        · subst hww
          rw [getD_set_self _ _ _ _ hwlt] at ht2
          exact WorkerPhase.noConfusion ht2
        · rw [getD_set_ne _ _ _ _ _ hww] at ht2
          have := (hi.lockPopped w2).mpr ⟨t2, ht2⟩
          rw [hl] at this
          exact Option.noConfusion this
    case valueSrc =>
      intro t2 v hv
      exact hi.valueSrc t2 v hv
    case noCrash => exact hi.noCrash
  | assertFail =>
    obtain ⟨ha, hq⟩ := workerWake_fail_inv s hres
    rw [canWake, hq, ha] at hc
    simp at hc
  | dequeued t =>
    rw [applyWake_dequeued s w t hres]
    obtain ⟨ha, rest, hq⟩ := workerWake_dequeued_inv s t hres
    have hperm : List.Perm
        ((s.workers.set w (WorkerPhase.popped t)).filterMap heldBy)
        (t :: heldList s) :=
      heldList_set_insert _ w _ t (by rw [hw]; rfl) rfl hwlt
    have hpermAll : List.Perm
        (s.work_queue.tail ++
          (s.workers.set w (WorkerPhase.popped t)).filterMap heldBy)
        (s.work_queue ++ heldList s) := by
      rw [hq]
      simp only [List.tail_cons, List.cons_append]
      exact (hperm.append_left rest).trans List.perm_middle
    constructor
    case lenEq => exact hi.lenEq
    case idsLt =>
      intro t2 ht2
      apply hi.idsLt t2
      rw [← hpermAll.mem_iff]
      simpa [heldList] using ht2
    case noDup =>
      have := hpermAll.symm.nodup hi.noDup
      simpa [heldList] using this
    case pendingIff =>
      intro t2 ht2
      have h1 := hi.pendingIff t2 ht2
      have h2 := hpermAll.mem_iff (a := t2)
      simp only [chanAt, heldList] at h1 h2 ⊢
      rw [h1]
      exact h2.symm
    case lockPopped =>
      intro w2
      simp only []
      by_cases hww : w2 = w
      · subst hww
        constructor
        · intro _
          exact ⟨t, getD_set_self _ _ _ _ hwlt⟩
        · intro _
          rfl
      · constructor
        · intro hcontra
          exact absurd (Option.some.inj hcontra).symm hww
        · rintro ⟨t2, ht2⟩
          rw [getD_set_ne _ _ _ _ _ (fun he => hww (he.symm))] at ht2
          have := (hi.lockPopped w2).mpr ⟨t2, ht2⟩
          rw [hl] at this
          exact Option.noConfusion this
    case valueSrc =>
      intro t2 v hv
      exact hi.valueSrc t2 v hv
    case noCrash => exact hi.noCrash

end ex43

namespace ex43

theorem runPackagedTask_ne_pending (c : Callable) :
    ex33.runPackagedTask c ≠ ChannelState.pending := by
  cases c <;> simp [ex33.runPackagedTask]

theorem runPackagedTask_value_inv (c : Callable) (v : Int)
    (h : ex33.runPackagedTask c = ChannelState.value v) : c = Except.ok v := by
  cases c with
  | ok v2 =>
    simp only [ex33.runPackagedTask, ChannelState.value.injEq] at h
    rw [h]
  | error e => simp [ex33.runPackagedTask] at h

theorem runPackagedTask_failure (e : String) :
    ex33.runPackagedTask (Except.error e) = ChannelState.failure e := rfl

theorem inv_unlock (s : PoolState) (w t : Nat)
    (hw : s.workers.getD w WorkerPhase.terminated = WorkerPhase.popped t)
    (hi : Inv s) : Inv (unlockRun s w t) := by
  have hwlt : w < s.workers.length := by
    apply lt_of_getD_ne s.workers w WorkerPhase.terminated
    rw [hw]
    intro he
    exact WorkerPhase.noConfusion he
  have hheld : (s.workers.set w (WorkerPhase.running t)).filterMap heldBy =
      heldList s :=
    heldList_set_keep _ _ _ (by rw [hw]; rfl)
  have hhold : s.lockHolder = some w := (hi.lockPopped w).mpr ⟨t, hw⟩
  constructor
  case lenEq => exact hi.lenEq
  case idsLt =>
    intro t2 ht2
    apply hi.idsLt t2
    simpa [heldList, hheld] using ht2
  case noDup =>
    have := hi.noDup
    simpa [heldList, hheld] using this
  case pendingIff =>
    intro t2 ht2
    have := hi.pendingIff t2 ht2
    simpa [chanAt, heldList, hheld] using this
  case lockPopped =>
    intro w2
    simp only [unlockRun_lock, unlockRun_workers]
    constructor
    · intro hcontra
      exact Option.noConfusion hcontra
    · rintro ⟨t2, ht2⟩
      by_cases hww : w = w2
      · subst hww
        rw [getD_set_self _ _ _ _ hwlt] at ht2
        exact WorkerPhase.noConfusion ht2
      · rw [getD_set_ne _ _ _ _ _ hww] at ht2
        have h2 := (hi.lockPopped w2).mpr ⟨t2, ht2⟩
        rw [hhold] at h2
        exact absurd (Option.some.inj h2) hww
  case valueSrc =>
    intro t2 v hv
    exact hi.valueSrc t2 v hv
  case noCrash => exact hi.noCrash

theorem inv_finish (s : PoolState) (w t : Nat)
    (hw : s.workers.getD w WorkerPhase.terminated = WorkerPhase.running t)
    (hi : Inv s) : Inv (finishTask s w t) := by
  have hwlt : w < s.workers.length := by
    apply lt_of_getD_ne s.workers w WorkerPhase.terminated
    rw [hw]
    intro he
    exact WorkerPhase.noConfusion he
  have htmem : t ∈ heldList s :=
    mem_heldList_of_getD s w t (by rw [hw]; rfl)
  have htlt : t < s.tasks.length :=
    hi.idsLt t (List.mem_append.mpr (Or.inr htmem))
  have htch : t < s.channels.length := by rw [hi.lenEq]; exact htlt
  have hpermH : List.Perm (heldList s)
      (t :: (s.workers.set w WorkerPhase.idle).filterMap heldBy) :=
    heldList_set_remove _ w _ t (by rw [hw]; rfl) rfl
  have hpermAll : List.Perm (s.work_queue ++ heldList s)
      (t :: (s.work_queue ++ (s.workers.set w WorkerPhase.idle).filterMap heldBy)) := by
    refine (hpermH.append_left s.work_queue).trans ?_
    exact List.perm_middle
  have hnodupCons := hpermAll.nodup hi.noDup
  have htnotin : t ∉ s.work_queue ++ (s.workers.set w WorkerPhase.idle).filterMap heldBy :=
    (List.nodup_cons.mp hnodupCons).1
  constructor
  case lenEq =>
    simp only [finishTask_channels, finishTask_tasks, List.length_set]
    exact hi.lenEq
  case idsLt =>
    intro t2 ht2
    simp only [finishTask_tasks]
    simp only [heldList, finishTask_queue, finishTask_workers] at ht2
    have : t2 ∈ s.work_queue ++ heldList s :=
      hpermAll.mem_iff.mpr (List.mem_cons_of_mem t ht2)
    exact hi.idsLt t2 this
  case noDup =>
    have := (List.nodup_cons.mp hnodupCons).2
    simpa [heldList] using this
  case pendingIff =>
    intro t2 ht2
    simp only [finishTask_tasks] at ht2
    simp only [chanAt, finishTask_channels, heldList, finishTask_queue,
      finishTask_workers]
    by_cases hteq : t2 = t
    · subst hteq
      rw [getD_set_self _ _ _ _ htch]
      constructor
      · intro hcontra
        exact absurd hcontra (runPackagedTask_ne_pending _)
      · intro hmem
        exact absurd hmem htnotin
    · rw [getD_set_ne _ _ _ _ _ fun he => hteq he.symm]
      have h1 := hi.pendingIff t2 ht2
      simp only [chanAt, heldList] at h1
      have h2 := hpermAll.mem_iff (a := t2)
      simp only [heldList] at h2
      rw [h1, h2]
      simp [List.mem_cons, hteq]
  case lockPopped =>
    intro w2
    simp only [finishTask_lock, finishTask_workers]
    by_cases hww : w2 = w
    · subst hww
      constructor
      · intro hcontra
        obtain ⟨t2, ht2⟩ := (hi.lockPopped w2).mp hcontra
        rw [hw] at ht2
        exact WorkerPhase.noConfusion ht2
      · rintro ⟨t2, ht2⟩
        rw [getD_set_self _ _ _ _ hwlt] at ht2
        exact absurd ht2 (by intro he; exact WorkerPhase.noConfusion he)
    · rw [getD_set_ne _ _ _ _ _ fun he => hww he.symm]
      exact hi.lockPopped w2
  case valueSrc =>
    intro t2 v hv
    simp only [chanAt, finishTask_channels] at hv
    simp only [finishTask_tasks]
    by_cases hteq : t2 = t
    · subst hteq
      rw [getD_set_self _ _ _ _ htch] at hv
      exact runPackagedTask_value_inv _ v hv
    · rw [getD_set_ne _ _ _ _ _ fun he => hteq he.symm] at hv
      exact hi.valueSrc t2 v hv
  case noCrash => exact hi.noCrash

end ex43

namespace ex43

theorem inv_abort (s : PoolState) (hi : Inv s) : Inv (setAborting s) :=
  ⟨hi.lenEq, hi.idsLt, hi.noDup, hi.pendingIff, hi.lockPopped, hi.valueSrc,
    hi.noCrash⟩

theorem abandonOne_length (chs : List ChannelState) (t : Nat) :
    (abandonOne chs t).length = chs.length := by
  unfold abandonOne
  cases chs.getD t ChannelState.broken <;> simp [List.length_set]

theorem breakAll_length (q : List Nat) (chs : List ChannelState) :
    (q.foldl abandonOne chs).length = chs.length := by
  induction q generalizing chs with
  | nil => rfl
  | cons u q2 ih =>
    rw [List.foldl_cons, ih, abandonOne_length]

theorem abandonOne_getD_ne (chs : List ChannelState) (t u : Nat) (h : u ≠ t) :
    (abandonOne chs u).getD t ChannelState.broken =
      chs.getD t ChannelState.broken := by
  unfold abandonOne
  cases chs.getD u ChannelState.broken with
  | pending => exact getD_set_ne _ _ _ _ _ h
  | value v => rfl
  | failure e => rfl
  | broken => rfl

theorem breakAll_getD_notmem (q : List Nat) (chs : List ChannelState) (t : Nat)
    (h : t ∉ q) :
    (q.foldl abandonOne chs).getD t ChannelState.broken =
      chs.getD t ChannelState.broken := by
  induction q generalizing chs with
  | nil => rfl
  | cons u q2 ih =>
    rw [List.foldl_cons]
    rw [ih _ fun hm => h (List.mem_cons_of_mem u hm)]
    exact abandonOne_getD_ne chs t u fun he => h (he ▸ List.mem_cons_self u q2)

theorem breakAll_getD_notpending (q : List Nat) (chs : List ChannelState)
    (t : Nat) (h : chs.getD t ChannelState.broken ≠ ChannelState.pending) :
    (q.foldl abandonOne chs).getD t ChannelState.broken =
      chs.getD t ChannelState.broken := by
  induction q generalizing chs with
  | nil => rfl
  | cons u q2 ih =>
    rw [List.foldl_cons]
    by_cases hut : u = t
    · have habandon : abandonOne chs u = chs := by
        unfold abandonOne
        rw [hut]
        cases hc : chs.getD t ChannelState.broken with
        | pending => exact absurd hc h
        | value v => rfl
        | failure e => rfl
        | broken => rfl
      rw [habandon]
      exact ih chs h
    · rw [ih (abandonOne chs u) (by rw [abandonOne_getD_ne chs t u hut]; exact h)]
      exact abandonOne_getD_ne chs t u hut

theorem breakAll_getD_mem (q : List Nat) (chs : List ChannelState) (t : Nat)
    (hm : t ∈ q) (hp : chs.getD t ChannelState.broken = ChannelState.pending)
    (ht : t < chs.length) :
    (q.foldl abandonOne chs).getD t ChannelState.broken =
      ChannelState.broken := by
  induction q generalizing chs with
  | nil => simp at hm
  | cons u q2 ih =>
    rw [List.foldl_cons]
    by_cases hut : u = t
    · have habandon : abandonOne chs u = chs.set t ChannelState.broken := by
        unfold abandonOne
        rw [hut, hp]
      rw [habandon]
      have hb : (chs.set t ChannelState.broken).getD t ChannelState.broken =
          ChannelState.broken := getD_set_self _ _ _ _ ht
      rw [breakAll_getD_notpending q2 _ t
        (by rw [hb]; intro hh; exact ChannelState.noConfusion hh)]
      exact hb
    · have hm2 : t ∈ q2 := by
        rcases List.mem_cons.mp hm with he | h2
        · exact absurd he.symm hut
        · exact h2
      apply ih (abandonOne chs u) hm2
      · rw [abandonOne_getD_ne chs t u hut]
        exact hp
      · rw [abandonOne_length]
        exact ht

theorem heldList_nil_of_all_terminated (s : PoolState)
    (ht : s.workers.all (fun p => p = WorkerPhase.terminated) = true) :
    heldList s = [] := by
  unfold heldList
  rw [List.filterMap_eq_nil_iff]
  intro p hp
  have h2 : p = WorkerPhase.terminated := by
    simpa using List.all_eq_true.mp ht p hp
  rw [h2]
  rfl

theorem inv_reclaim (s : PoolState) (ha : s.aborting = true)
    (ht : s.workers.all (fun p => p = WorkerPhase.terminated) = true)
    (hi : Inv s) : Inv (destroyQueue s) := by
  have hheldnil : heldList s = [] := heldList_nil_of_all_terminated s ht
  have hbl : (s.work_queue.foldl abandonOne s.channels).length =
      s.channels.length := breakAll_length _ _
  constructor
  case lenEq =>
    simp only [destroyQueue_channels, destroyQueue_tasks]
    rw [hbl]
    exact hi.lenEq
  case idsLt =>
    intro t2 ht2
    simp only [destroyQueue_queue, heldList_destroyQueue, hheldnil,
      List.nil_append] at ht2
    simp at ht2
  case noDup =>
    simp [heldList_destroyQueue, hheldnil]
  case pendingIff =>
    intro t2 ht2
    simp only [destroyQueue_tasks] at ht2
    simp only [chanAt, destroyQueue_channels, destroyQueue_queue,
      heldList_destroyQueue, hheldnil, List.nil_append]
    constructor
    · intro hcontra
      by_cases hp : s.channels.getD t2 ChannelState.broken = ChannelState.pending
      · have hmemq : t2 ∈ s.work_queue := by
          have := (hi.pendingIff t2 ht2).mp hp
          rw [hheldnil] at this
          simpa using this
        have hlt2 : t2 < s.channels.length := by
          rw [hi.lenEq]
          exact ht2
        rw [breakAll_getD_mem s.work_queue s.channels t2 hmemq hp hlt2] at hcontra
        exact ChannelState.noConfusion hcontra
      · rw [breakAll_getD_notpending s.work_queue s.channels t2 hp] at hcontra
        exact absurd hcontra hp
    · intro hmem
      simp at hmem
  case lockPopped =>
    intro w2
    exact hi.lockPopped w2
  case valueSrc =>
    intro t2 v hv
    simp only [chanAt, destroyQueue_channels] at hv
    simp only [destroyQueue_tasks]
    by_cases hp : s.channels.getD t2 ChannelState.broken = ChannelState.pending
    · by_cases hmemq : t2 ∈ s.work_queue
      · have hlt2 : t2 < s.channels.length := by
          apply lt_of_getD_ne
          rw [hp]
          intro hh
          exact ChannelState.noConfusion hh
        rw [breakAll_getD_mem s.work_queue s.channels t2 hmemq hp hlt2] at hv
        exact absurd hv (by intro hh; exact ChannelState.noConfusion hh)
      · rw [breakAll_getD_notmem s.work_queue s.channels t2 hmemq] at hv
        rw [hp] at hv
        exact absurd hv (by intro hh; exact ChannelState.noConfusion hh)
    · rw [breakAll_getD_notpending s.work_queue s.channels t2 hp] at hv
      exact hi.valueSrc t2 v hv
  case noCrash => exact hi.noCrash

end ex43

namespace ex43

theorem heldList_mkPool (size : Int) : heldList (mkPool size) = [] := by
  unfold heldList mkPool
  rw [List.filterMap_eq_nil_iff]
  intro p hp
  rw [List.eq_of_mem_replicate hp]
  rfl

theorem inv_init (size : Int) : Inv (mkPool size) := by
  constructor
  case lenEq => rfl
  case idsLt =>
    intro t ht
    rw [heldList_mkPool] at ht
    simp [mkPool] at ht
  case noDup =>
    rw [heldList_mkPool]
    simp [mkPool]
  case pendingIff =>
    intro t ht
    simp [mkPool] at ht
  case lockPopped =>
    intro w
    constructor
    · intro hcontra
      exact Option.noConfusion hcontra
    · rintro ⟨t, htc⟩
      rcases Nat.lt_or_ge w size.toNat with hlt | hge
      · rw [show (mkPool size).workers = List.replicate size.toNat WorkerPhase.idle from rfl] at htc
        rw [getD_replicate _ _ _ _ hlt] at htc
        exact WorkerPhase.noConfusion htc
      · rw [getD_of_le] at htc
        · exact WorkerPhase.noConfusion htc
        · simpa [mkPool] using hge
  case valueSrc =>
    intro t v hv
    simp [chanAt, mkPool] at hv
  case noCrash => rfl

theorem inv_preserved {s s2 : PoolState} (h : Step s s2) (hi : Inv s) :
    Inv s2 := by
  cases h with
  | submit c hl => exact inv_submit s c hi
  | wake w hw hl hc => exact inv_wake s w hw hl hc hi
  | unlock w t hw => exact inv_unlock s w t hw hi
  | finish w t hw => exact inv_finish s w t hw hi
  | abortPool hl => exact inv_abort s hi
  | reclaim ha ht => exact inv_reclaim s ha ht hi

theorem inv_reach (size : Int) {s : PoolState}
    (h : Reach (mkPool size) s) : Inv s := by
  induction h with
  | refl => exact inv_init size
  | tail _ hstep ih => exact inv_preserved hstep ih

theorem applyAct_step (s s2 : PoolState) (a : Act)
    (h : applyAct s a = some s2) : Step s s2 := by
  cases a with
  | submitA c =>
    simp only [applyAct] at h
    split at h
    · rename_i hcond
      injection h with h2
      rw [← h2]
      exact Step.submit s c hcond
    · exact Option.noConfusion h
  | wakeA w =>
    simp only [applyAct] at h
    split at h
    · rename_i hcond
      injection h with h2
      rw [← h2]
      exact Step.wake s w hcond.1 hcond.2.1 hcond.2.2
    · exact Option.noConfusion h
  | unlockA w =>
    simp only [applyAct] at h
    split at h
    · rename_i t heq
      injection h with h2
      rw [← h2]
      exact Step.unlock s w t heq
    · exact Option.noConfusion h
  | finishA w =>
    simp only [applyAct] at h
    split at h
    · rename_i t heq
      injection h with h2
      rw [← h2]
      exact Step.finish s w t heq
    · exact Option.noConfusion h
  | abortA =>
    simp only [applyAct] at h
    split at h
    · rename_i hcond
      injection h with h2
      rw [← h2]
      exact Step.abortPool s hcond
    · exact Option.noConfusion h
  | reclaimA =>
    simp only [applyAct] at h
    split at h
    · rename_i hcond
      injection h with h2
      rw [← h2]
      exact Step.reclaim s hcond.1 hcond.2
    · exact Option.noConfusion h

theorem runActs_reach (l : List Act) (s s2 : PoolState)
    (h : runActs s l = some s2) : Reach s s2 := by
  induction l generalizing s with
  | nil =>
    unfold runActs at h
    injection h with h2
    rw [← h2]
    exact Reach.refl s
  | cons a rest ih =>
    unfold runActs at h
    cases ha : applyAct s a with
    | none =>
      rw [ha] at h
      exact Option.noConfusion h
    | some smid =>
      rw [ha] at h
      exact reach_trans (reach_step (applyAct_step s smid a ha)) (ih smid h)

end ex43

namespace ex43

theorem tearFacts_comp {a b c : PoolState} (h1 : TearFacts a b)
    (h2 : TearFacts b c) : TearFacts a c :=
  ⟨reach_trans h1.toReach h2.toReach, h2.abortingEq, h2.lockNone,
    h2.noPoppedPost, h2.queueEq.trans h1.queueEq, h2.tasksEq.trans h1.tasksEq,
    h2.workersLen.trans h1.workersLen,
    fun w hw => h2.keepTerm w (h1.keepTerm w hw)⟩

theorem joinWorker_facts (s : PoolState) (w : Nat) (ha : s.aborting = true)
    (hl : s.lockHolder = none)
    (hp : ∀ w2 t, s.workers.getD w2 WorkerPhase.terminated ≠
      WorkerPhase.popped t) :
    TearFacts s (joinWorker s w) ∧
    (joinWorker s w).workers.getD w WorkerPhase.terminated =
      WorkerPhase.terminated := by
  cases hph : s.workers.getD w WorkerPhase.terminated with
  | popped t => exact absurd hph (hp w t)
  | terminated =>
    have hj : joinWorker s w = s := by
      unfold joinWorker
      rw [hph]
    rw [hj]
    exact ⟨⟨Reach.refl s, ha, hl, hp, rfl, rfl, rfl, fun w2 h2 => h2⟩, hph⟩
  | idle =>
    have hwlt : w < s.workers.length := by
      apply lt_of_getD_ne s.workers w WorkerPhase.terminated
      rw [hph]
      intro he
      exact WorkerPhase.noConfusion he
    have hexit : workerWake s = WakeResult.exit := (workerWake_exit_iff s).mpr ha
    have hj : joinWorker s w = applyWake s w := by
      unfold joinWorker
      rw [hph]
    have happ := applyWake_exit s w hexit
    constructor
    · constructor
      case toReach =>
        rw [hj]
        exact reach_step (Step.wake s w hph hl (canWake_of_aborting s ha))
      case abortingEq => rw [hj, happ]; exact ha
      case lockNone => rw [hj, happ]; exact hl
      case noPoppedPost =>
        rw [hj, happ]
        intro w2 t2
        by_cases hww : w2 = w
        · subst hww
          rw [getD_set_self _ _ _ _ hwlt]
          intro he
          exact WorkerPhase.noConfusion he
        · rw [getD_set_ne _ _ _ _ _ fun he => hww he.symm]
          exact hp w2 t2
      case queueEq => rw [hj, happ]
      case tasksEq => rw [hj, happ]
      case workersLen => rw [hj, happ]; simp [List.length_set]
      case keepTerm =>
        rw [hj, happ]
        intro w2 h2
        by_cases hww : w2 = w
        · subst hww
          exact getD_set_self _ _ _ _ hwlt
        · rw [getD_set_ne _ _ _ _ _ fun he => hww he.symm]
          exact h2
    · rw [hj, happ]
      exact getD_set_self _ _ _ _ hwlt
  | running t =>
    have hwlt : w < s.workers.length := by
      apply lt_of_getD_ne s.workers w WorkerPhase.terminated
      rw [hph]
      intro he
      exact WorkerPhase.noConfusion he
    have hw1 : (finishTask s w t).workers.getD w WorkerPhase.terminated =
        WorkerPhase.idle := by
      simp only [finishTask_workers]
      exact getD_set_self _ _ _ _ hwlt
    have hexit : workerWake (finishTask s w t) = WakeResult.exit :=
      (workerWake_exit_iff _).mpr ha
    have hj : joinWorker s w = applyWake (finishTask s w t) w := by
      unfold joinWorker
      rw [hph]
    have happ := applyWake_exit (finishTask s w t) w hexit
    have hwlt1 : w < (finishTask s w t).workers.length := by
      simp only [finishTask_workers, List.length_set]
      exact hwlt
    constructor
    · constructor
      case toReach =>
        rw [hj]
        refine reach_trans (reach_step (Step.finish s w t hph)) ?_
        exact reach_step (Step.wake (finishTask s w t) w hw1 hl
          (canWake_of_aborting _ ha))
      case abortingEq => rw [hj, happ]; exact ha
      case lockNone => rw [hj, happ]; exact hl
      case noPoppedPost =>
        rw [hj, happ]
        intro w2 t2
        by_cases hww : w2 = w
        · subst hww
          rw [getD_set_self _ _ _ _ hwlt1]
          intro he
          exact WorkerPhase.noConfusion he
        · simp only [finishTask_workers]
          rw [getD_set_ne _ _ _ _ _ fun he => hww he.symm,
            getD_set_ne _ _ _ _ _ fun he => hww he.symm]
          exact hp w2 t2
      case queueEq => rw [hj, happ]; rfl
      case tasksEq => rw [hj, happ]; rfl
      case workersLen =>
        rw [hj, happ]
        simp [List.length_set]
      case keepTerm =>
        rw [hj, happ]
        intro w2 h2
        by_cases hww : w2 = w
        · subst hww
          exact getD_set_self _ _ _ _ hwlt1
        · simp only [finishTask_workers]
          rw [getD_set_ne _ _ _ _ _ fun he => hww he.symm,
            getD_set_ne _ _ _ _ _ fun he => hww he.symm]
          exact h2
    · rw [hj, happ]
      exact getD_set_self _ _ _ _ hwlt1

end ex43

namespace ex43

theorem joinFold_facts (ws : List Nat) (s : PoolState) (ha : s.aborting = true)
    (hl : s.lockHolder = none)
    (hp : ∀ w2 t, s.workers.getD w2 WorkerPhase.terminated ≠
      WorkerPhase.popped t) :
    TearFacts s (ws.foldl joinWorker s) ∧
    ∀ w, w ∈ ws → (ws.foldl joinWorker s).workers.getD w
      WorkerPhase.terminated = WorkerPhase.terminated := by
  induction ws generalizing s with
  | nil =>
    refine ⟨⟨Reach.refl s, ha, hl, hp, rfl, rfl, rfl, fun w2 h2 => h2⟩, ?_⟩
    intro w hw
    simp at hw
  | cons w ws2 ih =>
    obtain ⟨tf1, hterm1⟩ := joinWorker_facts s w ha hl hp
    obtain ⟨tf2, hmem2⟩ := ih (joinWorker s w) tf1.abortingEq tf1.lockNone
      tf1.noPoppedPost
    rw [List.foldl_cons]
    refine ⟨tearFacts_comp tf1 tf2, ?_⟩
    intro w2 hw2
    rcases List.mem_cons.mp hw2 with he | hm
    · rw [he]
      exact tf2.keepTerm w hterm1
    · exact hmem2 w2 hm

theorem mem_all_terminated (l : List WorkerPhase)
    (h : ∀ w, l.getD w WorkerPhase.terminated = WorkerPhase.terminated) :
    l.all (fun p => p = WorkerPhase.terminated) = true := by
  rw [List.all_eq_true]
  intro p hp
  obtain ⟨i, hg⟩ := List.mem_iff_get.mp hp
  have h2 := h i
  rw [getD_eq_get _ _ _ i.isLt] at h2
  rw [hg] at h2
  simp [h2]

theorem joinAll_facts (s : PoolState) (ha : s.aborting = true)
    (hl : s.lockHolder = none)
    (hp : ∀ w2 t, s.workers.getD w2 WorkerPhase.terminated ≠
      WorkerPhase.popped t) :
    TearFacts s (joinAll s) ∧
    (joinAll s).workers.all (fun p => p = WorkerPhase.terminated) = true := by
  obtain ⟨tf, hmem⟩ := joinFold_facts (List.range s.workers.length) s ha hl hp
  refine ⟨tf, mem_all_terminated _ ?_⟩
  intro w
  rcases Nat.lt_or_ge w s.workers.length with hlt | hge
  · exact hmem w (List.mem_range.mpr hlt)
  · have hlen : (joinAll s).workers.length = s.workers.length := tf.workersLen
    apply getD_of_le
    rw [hlen]
    exact hge

theorem drainLock_facts (s : PoolState) (hi : Inv s) :
    Reach s (drainLock s) ∧ (drainLock s).lockHolder = none ∧
    (∀ w t, (drainLock s).workers.getD w WorkerPhase.terminated ≠
      WorkerPhase.popped t) ∧
    (drainLock s).work_queue = s.work_queue ∧
    (drainLock s).tasks = s.tasks ∧
    (drainLock s).aborting = s.aborting := by
  cases hhold : s.lockHolder with
  | none =>
    have hd : drainLock s = s := by
      unfold drainLock
      rw [hhold]
    rw [hd]
    refine ⟨Reach.refl s, hhold, ?_, rfl, rfl, rfl⟩
    intro w t hpop
    have h2 := (hi.lockPopped w).mpr ⟨t, hpop⟩
    rw [hhold] at h2
    exact Option.noConfusion h2
  | some w =>
    obtain ⟨t, hpop⟩ := (hi.lockPopped w).mp hhold
    have hwlt : w < s.workers.length := by
      apply lt_of_getD_ne s.workers w WorkerPhase.terminated
      rw [hpop]
      intro he
      exact WorkerPhase.noConfusion he
    have hd : drainLock s = unlockRun s w t := by
      unfold drainLock
      rw [hhold]
      dsimp only
      rw [hpop]
    rw [hd]
    refine ⟨reach_step (Step.unlock s w t hpop), rfl, ?_, rfl, rfl, rfl⟩
    intro w2 t2
    simp only [unlockRun_workers]
    by_cases hww : w2 = w
    · rw [hww, getD_set_self _ _ _ _ hwlt]
      intro he
      exact WorkerPhase.noConfusion he
    · rw [getD_set_ne _ _ _ _ _ fun he => hww he.symm]
      intro hpop2
      have h2 := (hi.lockPopped w2).mpr ⟨t2, hpop2⟩
      rw [hhold] at h2
      exact hww (Option.some.inj h2).symm

theorem teardown_facts (size : Int) (s : PoolState)
    (h : Reach (mkPool size) s) :
    Reach (mkPool size) (teardown s) ∧
    (teardown s).aborting = true ∧
    (teardown s).work_queue = [] ∧
    (teardown s).workers.all (fun p => p = WorkerPhase.terminated) = true ∧
    (teardown s).tasks = s.tasks ∧
    (∀ t, t ∈ s.work_queue → chanAt (teardown s) t = ChannelState.broken) := by
  have hi := inv_reach size h
  obtain ⟨hdr, hdl, hdp, hdq, hdt, hda⟩ := drainLock_facts s hi
  have hstep2 : Step (drainLock s) (setAborting (drainLock s)) :=
    Step.abortPool (drainLock s) hdl
  obtain ⟨tf3, hall3⟩ := joinAll_facts (setAborting (drainLock s)) rfl hdl hdp
  have hstep4 : Step (joinAll (setAborting (drainLock s)))
      (teardown s) :=
    Step.reclaim _ tf3.abortingEq hall3
  have hreach3 : Reach (mkPool size) (joinAll (setAborting (drainLock s))) :=
    reach_trans h (reach_trans hdr (reach_trans (reach_step hstep2)
      tf3.toReach))
  have hreachT : Reach (mkPool size) (teardown s) := Reach.tail hreach3 hstep4
  have hi3 := inv_reach size hreach3
  have hq3 : (joinAll (setAborting (drainLock s))).work_queue =
      s.work_queue := tf3.queueEq.trans hdq
  have ht3 : (joinAll (setAborting (drainLock s))).tasks = s.tasks :=
    tf3.tasksEq.trans hdt
  refine ⟨hreachT, tf3.abortingEq, rfl, hall3, ht3, ?_⟩
  intro t htq
  have htq3 : t ∈ (joinAll (setAborting (drainLock s))).work_queue := by
    rw [hq3]
    exact htq
  have htlt : t < (joinAll (setAborting (drainLock s))).tasks.length :=
    hi3.idsLt t (List.mem_append.mpr (Or.inl htq3))
  have hpend := (hi3.pendingIff t htlt).mpr (List.mem_append.mpr (Or.inl htq3))
  have htch : t < (joinAll (setAborting (drainLock s))).channels.length := by
    rw [hi3.lenEq]
    exact htlt
  exact breakAll_getD_mem _ _ t htq3 hpend htch

theorem teardown_no_pending (size : Int) (s : PoolState)
    (h : Reach (mkPool size) s) :
    ∀ t, t < s.tasks.length →
      chanAt (teardown s) t ≠ ChannelState.pending := by
  obtain ⟨hreachT, hab, hq, hall, htasks, hbroken⟩ := teardown_facts size s h
  have hiT := inv_reach size hreachT
  intro t htlt hpend
  have htlt2 : t < (teardown s).tasks.length := by
    rw [htasks]
    exact htlt
  have hmem := (hiT.pendingIff t htlt2).mp hpend
  rw [hq, heldList_nil_of_all_terminated _ hall] at hmem
  simp at hmem

end ex43

namespace ex43

/-! ### Behaviour of single steps once the aborting flag is up -/

theorem step_held_mono_of_aborting {s s2 : PoolState} (h : Step s s2)
    (ha : s.aborting = true) : ∀ t, t ∈ heldList s2 → t ∈ heldList s := by
  cases h with
  | submit c hl =>
    intro t ht
    simpa [heldList] using ht
  | wake w hw hl hc =>
    have hexit : workerWake s = WakeResult.exit :=
      (workerWake_exit_iff s).mpr ha
    rw [applyWake_exit s w hexit]
    intro t ht
    have heq := heldList_set_none s.workers w WorkerPhase.terminated
      (by rw [hw]; rfl) rfl
    simp only [heldList] at ht ⊢
    rw [heq] at ht
    exact ht
  | unlock w t2 hw =>
    intro t ht
    have heq := heldList_set_keep s.workers w (WorkerPhase.running t2)
      (by rw [hw]; rfl)
    simp only [heldList, unlockRun_workers] at ht ⊢
    rw [heq] at ht
    exact ht
  | finish w t2 hw =>
    intro t ht
    have hperm := heldList_set_remove s.workers w WorkerPhase.idle t2
      (by rw [hw]; rfl) rfl
    simp only [heldList] at hperm ht ⊢
    apply hperm.mem_iff.mpr
    exact List.mem_cons_of_mem t2 (by simpa using ht)
  | abortPool hl =>
    intro t ht
    simpa [heldList] using ht
  | reclaim ha2 ht2 =>
    intro t ht
    simpa [heldList] using ht

theorem step_queue_of_aborting {s s2 : PoolState} (h : Step s s2)
    (ha : s.aborting = true) :
    s2.work_queue = s.work_queue ++ [s.tasks.length] ∨
    s2.work_queue = s.work_queue ∨ s2.work_queue = [] := by
  cases h with
  | submit c hl => exact Or.inl rfl
  | wake w hw hl hc =>
    have hexit : workerWake s = WakeResult.exit :=
      (workerWake_exit_iff s).mpr ha
    rw [applyWake_exit s w hexit]
    exact Or.inr (Or.inl rfl)
  | unlock w t hw => exact Or.inr (Or.inl rfl)
  | finish w t hw => exact Or.inr (Or.inl rfl)
  | abortPool hl => exact Or.inr (Or.inl rfl)
  | reclaim ha2 ht2 => exact Or.inr (Or.inr rfl)

/-! ### The per-worker state machine over any single step -/

theorem step_phase_cases {s s2 : PoolState} (h : Step s s2) (w : Nat) :
    s2.workers.getD w WorkerPhase.terminated =
      s.workers.getD w WorkerPhase.terminated ∨
    (s.workers.getD w WorkerPhase.terminated = WorkerPhase.idle ∧
      s2.workers.getD w WorkerPhase.terminated = WorkerPhase.terminated ∧
      s.aborting = true) ∨
    (∃ t, s.workers.getD w WorkerPhase.terminated = WorkerPhase.idle ∧
      s2.workers.getD w WorkerPhase.terminated = WorkerPhase.popped t ∧
      s.aborting = false ∧ s.work_queue.head? = some t) ∨
    (∃ t, s.workers.getD w WorkerPhase.terminated = WorkerPhase.popped t ∧
      s2.workers.getD w WorkerPhase.terminated = WorkerPhase.running t) ∨
    (∃ t, s.workers.getD w WorkerPhase.terminated = WorkerPhase.running t ∧
      s2.workers.getD w WorkerPhase.terminated = WorkerPhase.idle) := by
  cases h with
  | submit c hl => exact Or.inl rfl
  | abortPool hl => exact Or.inl rfl
  | reclaim ha ht => exact Or.inl rfl
  | wake w2 hw hl hc =>
    have hwlt : w2 < s.workers.length := by
      apply lt_of_getD_ne s.workers w2 WorkerPhase.terminated
      rw [hw]
      intro he
      exact WorkerPhase.noConfusion he
    cases hres : workerWake s with
    | exit =>
      rw [applyWake_exit s w2 hres]
      have ha := (workerWake_exit_iff s).mp hres
      by_cases hww : w = w2
      · subst hww
        refine Or.inr (Or.inl ⟨hw, ?_, ha⟩)
        exact getD_set_self _ _ _ _ hwlt
      · exact Or.inl (getD_set_ne _ _ _ _ _ fun he => hww he.symm)
    | assertFail =>
      rw [applyWake_fail s w2 hres]
      exact Or.inl rfl
    | dequeued t =>
      rw [applyWake_dequeued s w2 t hres]
      obtain ⟨ha, rest, hq⟩ := workerWake_dequeued_inv s t hres
      by_cases hww : w = w2
      · subst hww
        refine Or.inr (Or.inr (Or.inl ⟨t, hw, ?_, ha, ?_⟩))
        · exact getD_set_self _ _ _ _ hwlt
        · rw [hq]
          rfl
      · exact Or.inl (getD_set_ne _ _ _ _ _ fun he => hww he.symm)
  | unlock w2 t hw =>
    have hwlt : w2 < s.workers.length := by
      apply lt_of_getD_ne s.workers w2 WorkerPhase.terminated
      rw [hw]
      intro he
      exact WorkerPhase.noConfusion he
    by_cases hww : w = w2
    · subst hww
      refine Or.inr (Or.inr (Or.inr (Or.inl ⟨t, hw, ?_⟩)))
      simp only [unlockRun_workers]
      exact getD_set_self _ _ _ _ hwlt
    · refine Or.inl ?_
      simp only [unlockRun_workers]
      exact getD_set_ne _ _ _ _ _ fun he => hww he.symm
  | finish w2 t hw =>
    have hwlt : w2 < s.workers.length := by
      apply lt_of_getD_ne s.workers w2 WorkerPhase.terminated
      rw [hw]
      intro he
      exact WorkerPhase.noConfusion he
    by_cases hww : w = w2
    · subst hww
      refine Or.inr (Or.inr (Or.inr (Or.inr ⟨t, hw, ?_⟩)))
      simp only [finishTask_workers]
      exact getD_set_self _ _ _ _ hwlt
    · refine Or.inl ?_
      simp only [finishTask_workers]
      exact getD_set_ne _ _ _ _ _ fun he => hww he.symm

/-! ### Submission bursts keep submission order -/

theorem submitAll_queue (cs : List Callable) (s : PoolState) :
    (submitAll s cs).work_queue =
      s.work_queue ++ List.range' s.tasks.length cs.length ∧
    (submitAll s cs).tasks.length = s.tasks.length + cs.length := by
  induction cs generalizing s with
  | nil => simp [submitAll]
  | cons c cs2 ih =>
    obtain ⟨ihq, iht⟩ := ih (enqueueTask s c)
    constructor
    · have h1 : (submitAll s (c :: cs2)).work_queue =
          (submitAll (enqueueTask s c) cs2).work_queue := rfl
      rw [h1, ihq]
      simp only [enqueueTask_queue, enqueueTask_tasks, List.length_append,
        List.length_singleton, List.length_cons]
      rw [List.range'_succ s.tasks.length cs2.length 1]
      simp [List.append_assoc]
    · have h1 : (submitAll s (c :: cs2)).tasks =
          (submitAll (enqueueTask s c) cs2).tasks := rfl
      have h2 : (enqueueTask s c).tasks.length = s.tasks.length + 1 := by
        simp
      rw [h1, iht, h2]
      simp only [List.length_cons]
      omega

end ex43

namespace ex43

theorem getD_nil {α : Type} (i : Nat) (d : α) : ([] : List α).getD i d = d :=
  getD_of_le _ _ _ (Nat.zero_le i)

theorem reach_no_workers (size : Int) (hsz : size ≤ 0) {s : PoolState}
    (h : Reach (mkPool size) s) :
    s.workers = [] ∧
    ∀ t, chanAt s t = ChannelState.pending ∨
      chanAt s t = ChannelState.broken := by
  induction h with
  | refl =>
    constructor
    · show List.replicate size.toNat WorkerPhase.idle = []
      rw [Int.toNat_of_nonpos hsz]
      rfl
    · intro t
      right
      show ([] : List ChannelState).getD t ChannelState.broken =
        ChannelState.broken
      exact getD_nil t _
  | @tail s1 s2 hr hstep ih =>
    obtain ⟨hw0, hch⟩ := ih
    cases hstep with
    | submit c hl =>
      refine ⟨hw0, ?_⟩
      intro t
      rcases Nat.lt_or_ge t s1.channels.length with hlt | hge
      · have hceq : chanAt (enqueueTask s1 c) t = chanAt s1 t := by
          simp only [chanAt, enqueueTask_channels]
          exact getD_append_lt _ _ _ _ hlt
        rw [hceq]
        exact hch t
      · rcases Nat.lt_or_ge t (s1.channels.length + 1) with hlt2 | hge2
        · have hteq : t = s1.channels.length := by omega
          subst hteq
          left
          simp only [chanAt, enqueueTask_channels]
          exact getD_append_len _ _ _
        · right
          simp only [chanAt, enqueueTask_channels]
          apply getD_of_le
          simp only [List.length_append, List.length_singleton]
          omega
    | wake w hw hl hc =>
      rw [hw0, getD_nil] at hw
      exact absurd hw (by intro he; exact WorkerPhase.noConfusion he)
    | unlock w t hw =>
      rw [hw0, getD_nil] at hw
      exact absurd hw (by intro he; exact WorkerPhase.noConfusion he)
    | finish w t hw =>
      rw [hw0, getD_nil] at hw
      exact absurd hw (by intro he; exact WorkerPhase.noConfusion he)
    | abortPool hl => exact ⟨hw0, hch⟩
    | reclaim ha2 ht2 =>
      refine ⟨hw0, ?_⟩
      intro t
      by_cases hp : chanAt s1 t = ChannelState.pending
      · by_cases hmem : t ∈ s1.work_queue
        · right
          have htlt : t < s1.channels.length := by
            apply lt_of_getD_ne
            show s1.channels.getD t ChannelState.broken ≠ ChannelState.broken
            rw [show s1.channels.getD t ChannelState.broken = chanAt s1 t
              from rfl, hp]
            intro he
            exact ChannelState.noConfusion he
          simp only [chanAt, destroyQueue_channels]
          exact breakAll_getD_mem _ _ _ hmem hp htlt
        · left
          simp only [chanAt, destroyQueue_channels]
          rw [breakAll_getD_notmem _ _ _ hmem]
          exact hp
      · have hceq : chanAt (destroyQueue s1) t = chanAt s1 t := by
          simp only [chanAt, destroyQueue_channels]
          exact breakAll_getD_notpending _ _ _ hp
        rw [hceq]
        exact hch t

end ex43

namespace ex43

/-- C1: destroying the pool while tasks are still queued and unexecuted
completes teardown — sets the aborting flag, wakes all workers, joins every
worker thread (all end terminated), empties the members — and every
abandoned queued task's channel resolves to the broken-promise state, whose
`get()` returns the broken-promise error instead of blocking. -/
theorem pool_destruction (size : Int) (s : PoolState)
    (h : Reach (mkPool size) s) :
    Reach (mkPool size) (teardown s) ∧
    (teardown s).aborting = true ∧
    (teardown s).workers.all (fun p => p = WorkerPhase.terminated) = true ∧
    (teardown s).work_queue = [] ∧
    ∀ t, t ∈ s.work_queue → chanAt (teardown s) t = ChannelState.broken ∧
      futureGet (chanAt (teardown s) t) =
        some (Except.error GetErr.brokenPromise) := by
  obtain ⟨hr, hab, hq, hall, htasks, hbroken⟩ := teardown_facts size s h
  refine ⟨hr, hab, hall, hq, ?_⟩
  intro t ht
  have hb := hbroken t ht
  refine ⟨hb, ?_⟩
  rw [hb]
  rfl

/-- Witness for C1 at a pool of one worker with one queued task. -/
theorem pool_destruction_wit :
    chanAt (teardown (enqueueTask (mkPool 1) (Except.ok 3))) 0 =
      ChannelState.broken ∧
    futureGet (chanAt (teardown (enqueueTask (mkPool 1) (Except.ok 3))) 0) =
      some (Except.error GetErr.brokenPromise) := by
  have hreach : Reach (mkPool 1) (enqueueTask (mkPool 1) (Except.ok 3)) :=
    reach_step (Step.submit (mkPool 1) (Except.ok 3) rfl)
  exact (pool_destruction 1 _ hreach).2.2.2.2 0 (by decide)

/-- C2: a worker executing a callable that throws delivers the exception
into the task's channel as the failure outcome (`get()` re-raises it), the
worker returns to waiting instead of terminating, and no other task's
channel or the queue is affected. -/
theorem task_throw_isolated (size : Int) (s : PoolState) (w t : Nat)
    (e : String) (h : Reach (mkPool size) s)
    (hw : s.workers.getD w WorkerPhase.terminated = WorkerPhase.running t)
    (he : s.tasks.getD t (Except.ok 0) = Except.error e) :
    Step s (finishTask s w t) ∧
    chanAt (finishTask s w t) t = ChannelState.failure e ∧
    futureGet (chanAt (finishTask s w t) t) =
      some (Except.error (GetErr.thrown e)) ∧
    (finishTask s w t).workers.getD w WorkerPhase.terminated =
      WorkerPhase.idle ∧
    (∀ u, u ≠ t → chanAt (finishTask s w t) u = chanAt s u) ∧
    (finishTask s w t).work_queue = s.work_queue ∧
    (finishTask s w t).tasks = s.tasks := by
  have hi := inv_reach size h
  have hwlt : w < s.workers.length := by
    apply lt_of_getD_ne s.workers w WorkerPhase.terminated
    rw [hw]
    intro h2
    exact WorkerPhase.noConfusion h2
  have htmem : t ∈ heldList s := mem_heldList_of_getD s w t (by rw [hw]; rfl)
  have htlt : t < s.tasks.length :=
    hi.idsLt t (List.mem_append.mpr (Or.inr htmem))
  have htch : t < s.channels.length := by
    rw [hi.lenEq]
    exact htlt
  have hcf : chanAt (finishTask s w t) t = ChannelState.failure e := by
    simp only [chanAt, finishTask_channels]
    rw [getD_set_self _ _ _ _ htch, he]
    rfl
  refine ⟨Step.finish s w t hw, hcf, by rw [hcf]; rfl, ?_, ?_, rfl, rfl⟩
  · simp only [finishTask_workers]
    exact getD_set_self _ _ _ _ hwlt
  · intro u hu
    simp only [chanAt, finishTask_channels]
    exact getD_set_ne _ _ _ _ _ fun h2 => hu h2.symm

/-- Witness for C2: on a one-worker pool running tasks 10, boom, 20, the
boom task's channel receives the failure, the worker survives, and both the
earlier and the later task deliver their values. -/
theorem task_throw_isolated_wit :
    chanAt (finishTask stateB 0 1) 1 = ChannelState.failure "boom" ∧
    futureGet (chanAt (finishTask stateB 0 1) 1) =
      some (Except.error (GetErr.thrown "boom")) ∧
    (finishTask stateB 0 1).workers.getD 0 WorkerPhase.terminated =
      WorkerPhase.idle ∧
    chanAt (finishTask stateB 0 1) 0 = ChannelState.value 10 ∧
    chanAt stateB2 0 = ChannelState.value 10 ∧
    chanAt stateB2 1 = ChannelState.failure "boom" ∧
    chanAt stateB2 2 = ChannelState.value 20 := by
  have hrun : runActs (mkPool 1) actsB = some stateB := by decide
  have h := task_throw_isolated 1 stateB 0 1 "boom"
    (runActs_reach _ _ _ hrun) (by decide) (by decide)
  exact ⟨h.2.1, h.2.2.1, h.2.2.2.1, by decide, by decide, by decide,
    by decide⟩

/-- C3: whenever a task's channel holds a value, that value is exactly the
one its own callable returns, and the single `get()` on the handle yields
it, whatever the interleaving was. -/
theorem async_result_value (size : Int) (s : PoolState) (t : Nat) (v : Int)
    (h : Reach (mkPool size) s) (hv : chanAt s t = ChannelState.value v) :
    s.tasks.getD t (Except.ok 0) = Except.ok v ∧
    futureGet (chanAt s t) = some (Except.ok v) := by
  have hi := inv_reach size h
  refine ⟨hi.valueSrc t v hv, ?_⟩
  rw [hv]
  rfl

/-- Witness for C3: pool of two, three tasks returning 1, 4, 9, completed in
an order different from submission order; each handle yields its own value. -/
theorem async_result_value_wit :
    (stateA.tasks.getD 0 (Except.ok 0) = Except.ok 1 ∧
      futureGet (chanAt stateA 0) = some (Except.ok 1)) ∧
    (stateA.tasks.getD 1 (Except.ok 0) = Except.ok 4 ∧
      futureGet (chanAt stateA 1) = some (Except.ok 4)) ∧
    (stateA.tasks.getD 2 (Except.ok 0) = Except.ok 9 ∧
      futureGet (chanAt stateA 2) = some (Except.ok 9)) := by
  have hrun : runActs (mkPool 2) actsA = some stateA := by decide
  have hreach := runActs_reach _ _ _ hrun
  exact ⟨async_result_value 2 stateA 0 1 hreach (by decide),
    async_result_value 2 stateA 1 4 hreach (by decide),
    async_result_value 2 stateA 2 9 hreach (by decide)⟩

/-- C4: a task cell's channel receives exactly one outcome over the pool's
lifetime: once non-pending it never changes again under any step, and by the
time the destructor has finished no live cell is still pending. -/
theorem one_outcome_per_cell (size : Int) (s : PoolState)
    (h : Reach (mkPool size) s) :
    (∀ s2, Step s s2 → ∀ t, t < s.tasks.length →
      chanAt s t ≠ ChannelState.pending → chanAt s2 t = chanAt s t) ∧
    (∀ t, t < s.tasks.length →
      chanAt (teardown s) t ≠ ChannelState.pending) := by
  have hi := inv_reach size h
  refine ⟨?_, teardown_no_pending size s h⟩
  intro s2 hstep t htlt hnp
  cases hstep with
  | submit c hl =>
    simp only [chanAt, enqueueTask_channels]
    exact getD_append_lt _ _ _ _ (by rw [hi.lenEq]; exact htlt)
  | wake w hw hl hc =>
    cases hres : workerWake s with
    | exit => rw [applyWake_exit s w hres]; rfl
    | assertFail => rw [applyWake_fail s w hres]; rfl
    | dequeued t2 => rw [applyWake_dequeued s w t2 hres]; rfl
  | unlock w t2 hw => rfl
  | finish w t2 hw =>
    have ht2mem : t2 ∈ heldList s :=
      mem_heldList_of_getD s w t2 (by rw [hw]; rfl)
    have ht2lt : t2 < s.tasks.length :=
      hi.idsLt t2 (List.mem_append.mpr (Or.inr ht2mem))
    have hpend : chanAt s t2 = ChannelState.pending :=
      (hi.pendingIff t2 ht2lt).mpr (List.mem_append.mpr (Or.inr ht2mem))
    have hne : t2 ≠ t := fun he => hnp (he ▸ hpend)
    simp only [chanAt, finishTask_channels]
    exact getD_set_ne _ _ _ _ _ hne
  | abortPool hl => rfl
  | reclaim ha ht2 =>
    simp only [chanAt, destroyQueue_channels]
    exact breakAll_getD_notpending _ _ _ hnp

/-- Witness for C4: the queued task of a one-worker pool has a non-pending
(broken) channel after teardown. -/
theorem one_outcome_per_cell_wit :
    chanAt (teardown (enqueueTask (mkPool 1) (Except.ok 4))) 0 ≠
      ChannelState.pending := by
  have hreach : Reach (mkPool 1) (enqueueTask (mkPool 1) (Except.ok 4)) :=
    reach_step (Step.submit (mkPool 1) (Except.ok 4) rfl)
  exact (one_outcome_per_cell 1 _ hreach).2 0 (by decide)

/-- C5: `enqueue_task` appends at the tail of the queue, a burst of
submissions lines the queue up in submission order, and a worker dequeue
takes exactly the head (FIFO, no priority). -/
theorem fifo_eligibility :
    (∀ (s : PoolState) (c : Callable),
      (enqueueTask s c).work_queue = s.work_queue ++ [s.tasks.length]) ∧
    (∀ (s : PoolState) (cs : List Callable),
      (submitAll s cs).work_queue =
        s.work_queue ++ List.range' s.tasks.length cs.length) ∧
    (∀ (s : PoolState) (w t : Nat) (rest : List Nat),
      s.aborting = false → s.work_queue = t :: rest →
      workerWake s = WakeResult.dequeued t ∧
      (applyWake s w).work_queue = rest) := by
  refine ⟨fun s c => rfl, fun s cs => (submitAll_queue cs s).1, ?_⟩
  intro s w t rest ha hq
  have hd := workerWake_dequeued_of s t rest ha hq
  refine ⟨hd, ?_⟩
  rw [applyWake_dequeued s w t hd]
  show s.work_queue.tail = rest
  rw [hq]
  rfl

/-- Witness for C5 at a concrete pool and burst. -/
theorem fifo_eligibility_wit :
    (enqueueTask (mkPool 2) (Except.ok 7)).work_queue = [0] ∧
    (submitAll (mkPool 2)
      [Except.ok 1, Except.ok 4, Except.ok 9]).work_queue = [0, 1, 2] ∧
    workerWake (enqueueTask (mkPool 2) (Except.ok 7)) =
      WakeResult.dequeued 0 ∧
    (applyWake (enqueueTask (mkPool 2) (Except.ok 7)) 0).work_queue = [] := by
  obtain ⟨h1, h2, h3⟩ := fifo_eligibility
  refine ⟨?_, ?_, ?_, ?_⟩
  · rw [h1 (mkPool 2) (Except.ok 7)]
    rfl
  · rw [h2 (mkPool 2) [Except.ok 1, Except.ok 4, Except.ok 9]]
    rfl
  · exact (h3 (enqueueTask (mkPool 2) (Except.ok 7)) 0 0 [] rfl rfl).1
  · exact (h3 (enqueueTask (mkPool 2) (Except.ok 7)) 0 0 [] rfl rfl).2

end ex43

namespace ex43

/-- C6 counterexample: `enqueue_task` never checks the aborting flag, so in
a reachable state whose flag is already set, a submit step still appends an
item to the work queue — refuting "no further items are ever enqueued". -/
theorem enqueue_after_shutdown_cex :
    Reach (mkPool 1) (setAborting (mkPool 1)) ∧
    (setAborting (mkPool 1)).aborting = true ∧
    Step (setAborting (mkPool 1))
      (enqueueTask (setAborting (mkPool 1)) (Except.ok 7)) ∧
    (setAborting (mkPool 1)).work_queue = [] ∧
    (enqueueTask (setAborting (mkPool 1)) (Except.ok 7)).work_queue = [0] :=
  ⟨reach_step (Step.abortPool (mkPool 1) rfl), rfl,
    Step.submit _ (Except.ok 7) rfl, rfl, rfl⟩

/-- C6 (amended): once the aborting flag is set, no worker ever acquires
another task — the held-task set can only shrink — and the queue changes
only by a post-shutdown enqueue (the flag is not checked there), staying
put, or being discarded whole at reclamation; no item is ever dequeued for
execution. -/
theorem no_dequeue_after_shutdown (s s2 : PoolState) (h : Step s s2)
    (ha : s.aborting = true) :
    (∀ t, t ∈ heldList s2 → t ∈ heldList s) ∧
    (s2.work_queue = s.work_queue ++ [s.tasks.length] ∨
      s2.work_queue = s.work_queue ∨ s2.work_queue = []) :=
  ⟨step_held_mono_of_aborting h ha, step_queue_of_aborting h ha⟩

/-- Witness for the amended C6 at a concrete post-shutdown submit step. -/
theorem no_dequeue_after_shutdown_wit :
    (enqueueTask stateAband (Except.ok 9)).work_queue =
      stateAband.work_queue ++ [stateAband.tasks.length] ∨
    (enqueueTask stateAband (Except.ok 9)).work_queue =
      stateAband.work_queue ∨
    (enqueueTask stateAband (Except.ok 9)).work_queue = [] :=
  (no_dequeue_after_shutdown stateAband _
    (Step.submit stateAband (Except.ok 9) rfl) rfl).2

/-- C7 counterexample: with the aborting flag set and the queue non-empty
(one abandoned task), a waiting worker's wake step still terminates it —
refuting "WAITING to TERMINATED only upon observing shutdown with the queue
empty". -/
theorem worker_exit_nonempty_cex :
    Reach (mkPool 1) stateAband ∧
    stateAband.aborting = true ∧
    stateAband.work_queue = [0] ∧
    stateAband.workers.getD 0 WorkerPhase.terminated = WorkerPhase.idle ∧
    Step stateAband (applyWake stateAband 0) ∧
    (applyWake stateAband 0).workers.getD 0 WorkerPhase.terminated =
      WorkerPhase.terminated ∧
    (applyWake stateAband 0).work_queue = [0] := by
  refine ⟨?_, rfl, rfl, rfl,
    Step.wake stateAband 0 rfl rfl (by decide), by decide, by decide⟩
  exact reach_trans (reach_step (Step.submit (mkPool 1) (Except.ok 5) rfl))
    (reach_step (Step.abortPool (enqueueTask (mkPool 1) (Except.ok 5)) rfl))

/-- C7 (amended): over any step, each worker either keeps its phase or takes
one of the machine's transitions — WAITING to TERMINATED exactly upon
observing shutdown (the queue may be non-empty), WAITING to holding the
queue head when not shutting down, acquiring to RUNNING, or RUNNING back to
WAITING — and a terminated worker stays terminated, running nothing
further. -/
theorem worker_state_machine (s s2 : PoolState) (h : Step s s2) (w : Nat) :
    (s2.workers.getD w WorkerPhase.terminated =
        s.workers.getD w WorkerPhase.terminated ∨
      (s.workers.getD w WorkerPhase.terminated = WorkerPhase.idle ∧
        s2.workers.getD w WorkerPhase.terminated = WorkerPhase.terminated ∧
        s.aborting = true) ∨
      (∃ t, s.workers.getD w WorkerPhase.terminated = WorkerPhase.idle ∧
        s2.workers.getD w WorkerPhase.terminated = WorkerPhase.popped t ∧
        s.aborting = false ∧ s.work_queue.head? = some t) ∨
      (∃ t, s.workers.getD w WorkerPhase.terminated =
          WorkerPhase.popped t ∧
        s2.workers.getD w WorkerPhase.terminated = WorkerPhase.running t) ∨
      (∃ t, s.workers.getD w WorkerPhase.terminated =
          WorkerPhase.running t ∧
        s2.workers.getD w WorkerPhase.terminated = WorkerPhase.idle)) ∧
    (s.workers.getD w WorkerPhase.terminated = WorkerPhase.terminated →
      s2.workers.getD w WorkerPhase.terminated = WorkerPhase.terminated) := by
  refine ⟨step_phase_cases h w, ?_⟩
  intro hterm
  rcases step_phase_cases h w with heq | ⟨h1, _⟩ | ⟨t, h1, _⟩ |
    ⟨t, h1, _⟩ | ⟨t, h1, _⟩
  · rw [heq]
    exact hterm
  all_goals
    rw [hterm] at h1
    exact absurd h1 (by intro he; exact WorkerPhase.noConfusion he)

/-- Witness for the amended C7: a terminated worker stays terminated across
a further step. -/
theorem worker_state_machine_wit :
    (enqueueTask (applyWake stateAband 0) (Except.ok 3)).workers.getD 0
      WorkerPhase.terminated = WorkerPhase.terminated :=
  (worker_state_machine (applyWake stateAband 0) _
    (Step.submit _ (Except.ok 3) (by decide)) 0).2 (by decide)

/-- C8: in every reachable state, a worker that is executing a task body has
already released the queue mutex — the lock holder is never a running
worker. -/
theorem lock_not_held_while_running (size : Int) (s : PoolState) (w t : Nat)
    (h : Reach (mkPool size) s)
    (hw : s.workers.getD w WorkerPhase.terminated = WorkerPhase.running t) :
    s.lockHolder ≠ some w := by
  have hi := inv_reach size h
  intro hcontra
  obtain ⟨t2, ht2⟩ := (hi.lockPopped w).mp hcontra
  rw [hw] at ht2
  exact WorkerPhase.noConfusion ht2

/-- Witness for C8 at a state whose single worker is mid-task. -/
theorem lock_not_held_while_running_wit : stateB.lockHolder ≠ some 0 := by
  have hrun : runActs (mkPool 1) actsB = some stateB := by decide
  exact lock_not_held_while_running 1 stateB 0 1 (runActs_reach _ _ _ hrun)
    (by decide)

/-- C9: a worker that leaves the condition-variable wait loop with the
aborting flag false finds the queue non-empty, so the
`assert(!work_queue.empty())` in `worker_loop` never fires — no reachable
state is crashed. -/
theorem wait_exit_nonempty (size : Int) (s : PoolState)
    (h : Reach (mkPool size) s) :
    s.crashed = false ∧
    (canWake s = true → s.aborting = false →
      s.work_queue ≠ [] ∧ workerWake s ≠ WakeResult.assertFail) := by
  have hi := inv_reach size h
  refine ⟨hi.noCrash, ?_⟩
  intro hc ha
  have hq : s.work_queue ≠ [] := by
    intro hq
    rw [canWake, hq, ha] at hc
    simp at hc
  refine ⟨hq, ?_⟩
  intro hfail
  exact hq (workerWake_fail_inv s hfail).2

/-- Witness for C9 at a concrete woken state. -/
theorem wait_exit_nonempty_wit :
    (enqueueTask (mkPool 1) (Except.ok 2)).crashed = false ∧
    (enqueueTask (mkPool 1) (Except.ok 2)).work_queue ≠ [] ∧
    workerWake (enqueueTask (mkPool 1) (Except.ok 2)) ≠
      WakeResult.assertFail := by
  have h := wait_exit_nonempty 1 (enqueueTask (mkPool 1) (Except.ok 2))
    (reach_step (Step.submit (mkPool 1) (Except.ok 2) rfl))
  exact ⟨h.1, h.2 (by decide) rfl⟩

/-- C10: constructing the pool with a nonpositive size spawns no workers and
still succeeds; any submitted task stays pending or becomes broken (it is
never executed), and after the destructor its handle reports the
broken-promise error, teardown completing with nothing to join. -/
theorem nonpositive_size_pool (size : Int) (hsz : size ≤ 0) :
    (mkPool size).workers = [] ∧
    (∀ s, Reach (mkPool size) s → s.workers = [] ∧
      ∀ t, chanAt s t = ChannelState.pending ∨
        chanAt s t = ChannelState.broken) ∧
    (∀ c, (teardown (enqueueTask (mkPool size) c)).work_queue = [] ∧
      (teardown (enqueueTask (mkPool size) c)).workers = [] ∧
      chanAt (teardown (enqueueTask (mkPool size) c)) 0 =
        ChannelState.broken ∧
      futureGet (chanAt (teardown (enqueueTask (mkPool size) c)) 0) =
        some (Except.error GetErr.brokenPromise)) := by
  have hw0 : (mkPool size).workers = [] := by
    show List.replicate size.toNat WorkerPhase.idle = []
    rw [Int.toNat_of_nonpos hsz]
    rfl
  refine ⟨hw0, fun s h => reach_no_workers size hsz h, ?_⟩
  intro c
  have hreach : Reach (mkPool size) (enqueueTask (mkPool size) c) :=
    reach_step (Step.submit (mkPool size) c rfl)
  obtain ⟨hr, hab, hq, hall, htasks, hbroken⟩ := teardown_facts size _ hreach
  have hmem : 0 ∈ (enqueueTask (mkPool size) c).work_queue := by
    show 0 ∈ (mkPool size).work_queue ++ [(mkPool size).tasks.length]
    simp [mkPool]
  have hb := hbroken 0 hmem
  obtain ⟨hw2, _⟩ := reach_no_workers size hsz hr
  exact ⟨hq, hw2, hb, by rw [hb]; rfl⟩

/-- Witness for C10 at size -1. -/
theorem nonpositive_size_pool_wit :
    (mkPool (-1)).workers = [] ∧
    chanAt (teardown (enqueueTask (mkPool (-1)) (Except.ok 3))) 0 =
      ChannelState.broken := by
  have h := nonpositive_size_pool (-1) (by decide)
  exact ⟨h.1, (h.2.2 (Except.ok 3)).2.2.1⟩

end ex43
